import Mathlib

/-!
Verification development for the peer-identity, mDNS discovery and
length-prefix serializer subsystems of a libp2p-family networking
library.  Rust sources are shallowly embedded: machine bytes become
natural numbers below 256, fallible operations return `Option` or
`Except`, and external cryptographic hash functions (SHA-256, SHA3-256)
are passed as explicit function arguments since they are external
library collaborators whose internals the verified code never inspects.

Structure: definitions first (multihash framing, PeerId operations,
base-58 and base-32 codecs, the push/pop serializer, the mDNS packet
model), then one theorem per specification claim.
-/

set_option maxRecDepth 4000

/-! ## Generic radix utilities -/

/-- Least-significant-first digits of `n` in base `b`, driven by fuel so
that the definition is structurally recursive and kernel-reducible. -/
def toDigitsRevFuel (b : Nat) : Nat → Nat → List Nat
  | 0, _ => []
  | fuel + 1, n => if n = 0 then [] else n % b :: toDigitsRevFuel b fuel (n / b)

/-- Least-significant-first digits of `n` in base `b`. -/
def toDigitsRev (b n : Nat) : List Nat := toDigitsRevFuel b n n

/-- Big-endian digits of `n` in base `b` (empty for `0`). -/
def toDigitsBE (b n : Nat) : List Nat := (toDigitsRev b n).reverse

/-- Big-endian evaluation of a digit list in base `b`. -/
def ofDigitsBE (b : Nat) (l : List Nat) : Nat := l.foldl (fun a d => a * b + d) 0

theorem toDigitsRevFuel_eq_digits (b : Nat) (hb : 2 ≤ b) :
    ∀ fuel n, n ≤ fuel → toDigitsRevFuel b fuel n = Nat.digits b n := by
  intro fuel
  induction fuel with
  | zero =>
    intro n hn
    interval_cases n
    simp [toDigitsRevFuel]
  | succ fuel ih =>
    intro n hn
    by_cases h0 : n = 0
    · simp [toDigitsRevFuel, h0]
    · rw [toDigitsRevFuel]
      simp only [h0, if_false]
      rw [ih (n / b) ?_, Nat.digits_def' (by omega : 1 < b) (by omega : 0 < n)]
      have : n / b < n := Nat.div_lt_self (by omega) (by omega)
      omega

theorem toDigitsRev_eq_digits (b n : Nat) (hb : 2 ≤ b) :
    toDigitsRev b n = Nat.digits b n :=
  toDigitsRevFuel_eq_digits b hb n n le_rfl

theorem foldl_mul_add (b : Nat) (l : List Nat) (a : Nat) :
    l.foldl (fun a d => a * b + d) a = a * b ^ l.length + Nat.ofDigits b l.reverse := by
  induction l generalizing a with
  | nil => simp [Nat.ofDigits]
  | cons d t ih =>
    simp only [List.foldl_cons, List.length_cons, List.reverse_cons, ih]
    rw [Nat.ofDigits_append]
    simp [Nat.ofDigits, pow_succ]
    ring

theorem ofDigitsBE_reverse (b : Nat) (l : List Nat) :
    ofDigitsBE b l = Nat.ofDigits b l.reverse := by
  simp [ofDigitsBE, foldl_mul_add]

theorem ofDigitsBE_toDigitsBE (b n : Nat) (hb : 2 ≤ b) :
    ofDigitsBE b (toDigitsBE b n) = n := by
  rw [ofDigitsBE_reverse, toDigitsBE, List.reverse_reverse, toDigitsRev_eq_digits b n hb]
  exact_mod_cast Nat.ofDigits_digits b n

theorem toDigitsBE_ofDigitsBE (b : Nat) (hb : 2 ≤ b) (l : List Nat)
    (hd : ∀ d ∈ l, d < b) (hh : l.head? ≠ some 0) :
    toDigitsBE b (ofDigitsBE b l) = l := by
  rw [ofDigitsBE_reverse, toDigitsBE, toDigitsRev_eq_digits _ _ hb]
  rw [Nat.digits_ofDigits b (by omega) l.reverse
    (by intro d hdm; exact hd d (List.mem_reverse.mp hdm))
    (by
      intro hne
      rw [List.getLast_reverse]
      intro hc
      cases l with
      | nil => simp at hne
      | cons x t => simp_all)]
  exact List.reverse_reverse l

theorem toDigitsBE_head_ne_zero (b n : Nat) (hb : 2 ≤ b) (hn : n ≠ 0) :
    (toDigitsBE b n).head? ≠ some 0 := by
  rw [toDigitsBE, toDigitsRev_eq_digits _ _ hb]
  have hne : Nat.digits b n ≠ [] := Nat.digits_ne_nil_iff_ne_zero.mpr hn
  have hlast := Nat.getLast_digit_ne_zero b hn
  rw [List.head?_reverse]
  rw [List.getLast?_eq_getLast _ hne]
  intro hc
  exact hlast (by simpa using hc)

theorem toDigitsBE_lt (b n : Nat) (hb : 2 ≤ b) : ∀ d ∈ toDigitsBE b n, d < b := by
  intro d hd
  rw [toDigitsBE, toDigitsRev_eq_digits _ _ hb] at hd
  exact Nat.digits_lt_base (by omega) (List.mem_reverse.mp hd)

/-! ## Multihash

The multihash crate's `Multihash` value: a hashing code together with a
digest of at most 64 bytes (the crate's allocation bound).  Wire form is
the standard TLV: unsigned-varint code, unsigned-varint digest length,
digest bytes. -/

structure Multihash where
  code : Nat
  digest : List Nat
  deriving DecidableEq, Repr

/-- Wellformedness of a `Multihash` value as enforced by the Rust type:
bytes are bytes and the digest fits the 64-byte allocation. -/
def Multihash.WF (m : Multihash) : Prop :=
  m.digest.length ≤ 64 ∧ ∀ b ∈ m.digest, b < 256

instance (m : Multihash) : Decidable m.WF := by
  unfold Multihash.WF; infer_instance

/-- The `Identity` multihash code. -/
def identityCode : Nat := 0x00

/-- The `Sha2_256` multihash code. -/
def sha2_256Code : Nat := 0x12

/-- Unsigned LEB128 varint encoding (fuel-driven for kernel reduction). -/
def varintEncodeFuel : Nat → Nat → List Nat
  | 0, _ => []
  | fuel + 1, n => if n < 128 then [n] else (n % 128 + 128) :: varintEncodeFuel fuel (n / 128)

def varintEncode (n : Nat) : List Nat := varintEncodeFuel (n + 1) n

/-- Unsigned LEB128 varint decoding: returns the value and the rest of
the input, or `none` on truncated input. -/
def varintDecode : List Nat → Option (Nat × List Nat)
  | [] => none
  | b :: rest =>
    if b < 128 then some (b, rest)
    else (varintDecode rest).map fun vr => ((b - 128) + 128 * vr.1, vr.2)

theorem varintEncodeFuel_spec (fuel n : Nat) (h : n < fuel) (rest : List Nat) :
    varintDecode (varintEncodeFuel fuel n ++ rest) = some (n, rest) := by
  induction fuel generalizing n with
  | zero => omega
  | succ fuel ih =>
    rw [varintEncodeFuel]
    by_cases hn : n < 128
    · simp [hn, varintDecode]
    · simp only [hn, if_false, List.cons_append]
      rw [varintDecode]
      have h128 : ¬ (n % 128 + 128 < 128) := by omega
      simp only [h128, if_false]
      rw [ih (n / 128) (by
        have := Nat.div_lt_self (show 0 < n by omega) (show 1 < 128 by omega)
        omega)]
      simp only [Option.map, Option.some.injEq, Prod.mk.injEq]
      exact ⟨by omega, trivial⟩

theorem varintDecode_encode (n : Nat) (rest : List Nat) :
    varintDecode (varintEncode n ++ rest) = some (n, rest) :=
  varintEncodeFuel_spec (n + 1) n (by omega) rest

theorem varintEncode_bytes (n : Nat) : ∀ b ∈ varintEncode n, b < 256 := by
  unfold varintEncode
  generalize n + 1 = fuel
  induction fuel generalizing n with
  | zero => simp [varintEncodeFuel]
  | succ fuel ih =>
    rw [varintEncodeFuel]
    by_cases hn : n < 128
    · simp only [hn, if_true]
      intro b hb
      simp at hb
      omega
    · simp only [hn, if_false]
      intro b hb
      rcases List.mem_cons.mp hb with h | h
      · omega
      · exact ih _ b h

/-- Serialization of a multihash: varint code, varint length, digest. -/
def Multihash.to_bytes (m : Multihash) : List Nat :=
  varintEncode m.code ++ varintEncode m.digest.length ++ m.digest

/-- Parsing a multihash from bytes: reads the varint code and varint
size, requires the size to fit the 64-byte allocation and the digest to
be exactly the remaining bytes. -/
def Multihash.from_bytes (bs : List Nat) : Option Multihash :=
  match varintDecode bs with
  | none => none
  | some (code, r1) =>
    match varintDecode r1 with
    | none => none
    | some (sz, r2) =>
      if sz ≤ 64 ∧ r2.length = sz then some ⟨code, r2⟩ else none

theorem Multihash.from_to_bytes (m : Multihash) (h : m.digest.length ≤ 64) :
    Multihash.from_bytes m.to_bytes = some m := by
  simp only [Multihash.to_bytes, Multihash.from_bytes, List.append_assoc, varintDecode_encode]
  simp [h]

/-! ## PublicKey

Modelled from the spec: the repository's `identity` module (the
`PublicKey` tagged union and its `into_protobuf_encoding` /
`from_protobuf_encoding` canonical byte envelope) is not among the
provided sources.  Per the spec it is a tagged union over key types with
a mandatory Ed25519 variant, and the canonical encoding is a simple
tagged envelope (key type tag + key material); the spec's scenario fixes
the Ed25519 canonical encoding at 36 bytes for a 32-byte key, matching
the protobuf envelope `08 01 12 20` followed by the raw key. -/

inductive PublicKey where
  | ed25519 (key : List Nat)
  | other (tag : Nat) (material : List Nat)
  deriving DecidableEq, Repr

/-- Modelled from the spec: canonical byte encoding of a public key
(tagged envelope: key type tag then key material). -/
def PublicKey.into_protobuf_encoding : PublicKey → List Nat
  | .ed25519 key => 8 :: 1 :: 18 :: 32 :: key
  | .other tag material => 8 :: tag % 256 :: 18 :: material.length % 256 :: material

/-- Modelled from the spec: decoding the canonical envelope back into a
`PublicKey`; the Ed25519 variant requires exactly 32 key bytes. -/
def PublicKey.from_protobuf_encoding : List Nat → Option PublicKey
  | t1 :: tag :: t2 :: len :: material =>
    if t1 = 8 ∧ t2 = 18 then
      if tag = 1 then
        if len = 32 ∧ material.length = 32 then some (.ed25519 material) else none
      else if material.length = len then some (.other tag material) else none
    else none
  | _ => none

/-- Inversion of the Ed25519 case of the envelope decoder. -/
theorem from_protobuf_ed25519_inv (d k : List Nat)
    (h : PublicKey.from_protobuf_encoding d = some (.ed25519 k)) :
    d = 8 :: 1 :: 18 :: 32 :: k ∧ k.length = 32 := by
  rcases d with _ | ⟨t1, d⟩
  · simp [PublicKey.from_protobuf_encoding] at h
  rcases d with _ | ⟨tag, d⟩
  · simp [PublicKey.from_protobuf_encoding] at h
  rcases d with _ | ⟨t2, d⟩
  · simp [PublicKey.from_protobuf_encoding] at h
  rcases d with _ | ⟨len, material⟩
  · simp [PublicKey.from_protobuf_encoding] at h
  simp only [PublicKey.from_protobuf_encoding] at h
  split at h
  · rename_i henv
    split at h
    · rename_i htag
      split at h
      · rename_i hlen
        simp only [Option.some.injEq, PublicKey.ed25519.injEq] at h
        subst h
        exact ⟨by rw [henv.1, henv.2, htag, hlen.1], hlen.2⟩
      · simp at h
    · split at h <;> simp at h
  · simp at h

/-! ## PeerId -/

/-- Identifier of a peer of the network: a multihash of the peer's
public key. -/
structure PeerId where
  multihash : Multihash
  deriving DecidableEq, Repr

/-- Public keys whose encoding is at most this many bytes are inlined
with an identity multihash (`MAX_INLINE_KEY_LENGTH`). -/
def MAX_INLINE_KEY_LENGTH : Nat := 42

/-- The digest step of `Code::digest`, panic-aware.  The identity code
keeps the input bytes, but the crate's identity hasher copies them into
its fixed 64-byte allocation and panics when they do not fit; the panic
is modelled as `none`.  The SHA-256 code applies the external `sha256`
function, whose 32-byte digest always fits the allocation. -/
def codeDigest (sha256 : List Nat → List Nat) (code : Nat) (input : List Nat) :
    Option Multihash :=
  if code = identityCode then
    if input.length ≤ 64 then some ⟨identityCode, input⟩ else none
  else some ⟨sha2_256Code, sha256 input⟩

/-- `PeerId::from_public_key`: encode the key, choose identity for
encodings of at most 42 bytes and SHA-256 otherwise, wrap as multihash.
The source digests through `Code::digest`; on the identity branch the
42-byte guard keeps the input within the hasher's 64-byte allocation,
so there the digest is the input itself and the call cannot panic
(`codeDigest` is exact on this branch), and the SHA-256 branch wraps
the external function's digest.  The SHA-256 function of the external
hashing crate is an argument. -/
def PeerId.from_public_key (sha256 : List Nat → List Nat) (key : PublicKey) : PeerId :=
  let key_enc := key.into_protobuf_encoding
  if key_enc.length ≤ MAX_INLINE_KEY_LENGTH then { multihash := ⟨identityCode, key_enc⟩ }
  else { multihash := ⟨sha2_256Code, sha256 key_enc⟩ }

/-- `PeerId::from_multihash`: accept SHA-256 unconditionally, accept
identity only when the digest has at most 42 bytes, and hand any other
multihash back unchanged as the error payload. -/
def PeerId.from_multihash (multihash : Multihash) : Except Multihash PeerId :=
  if multihash.code = sha2_256Code then .ok ⟨multihash⟩
  else if multihash.code = identityCode ∧ multihash.digest.length ≤ MAX_INLINE_KEY_LENGTH then
    .ok ⟨multihash⟩
  else .error multihash

/-- `PeerId::from_bytes`: parse the multihash envelope, then validate it
through `from_multihash` (errors collapse to `none`). -/
def PeerId.from_bytes (data : List Nat) : Option PeerId :=
  match Multihash.from_bytes data with
  | none => none
  | some mh =>
    match PeerId.from_multihash mh with
    | .ok p => some p
    | .error _ => none

/-- `PeerId::random`: wrap 32 drawn bytes as an identity multihash; the
draw is an explicit argument of the embedding. -/
def PeerId.random (draw : List Nat) : PeerId := ⟨⟨identityCode, draw⟩⟩

/-- `PeerId::to_bytes`. -/
def PeerId.to_bytes (p : PeerId) : List Nat := p.multihash.to_bytes

/-- The type invariant of `PeerId`: the code is one of the two
recognized codes, an identity digest has at most 42 bytes, and the
multihash is a wellformed crate value. -/
def PeerId.WF (p : PeerId) : Prop :=
  p.multihash.WF ∧
    (p.multihash.code = sha2_256Code ∨
      (p.multihash.code = identityCode ∧
        p.multihash.digest.length ≤ MAX_INLINE_KEY_LENGTH))

instance (p : PeerId) : Decidable p.WF := by
  unfold PeerId.WF; infer_instance

/-! ## Claim C1 -/

/-- C1: `PeerId::from_public_key` encodes the key to its canonical
bytes and wraps them as an identity multihash when the encoding has at
most 42 bytes (inclusive threshold: exactly 42 bytes still inlines),
and otherwise wraps the SHA-256 hash of those bytes; the result is a
deterministic function of the key. -/
theorem C1_from_public_key_inline_threshold
    (sha256 : List Nat → List Nat) (key : PublicKey) :
    (key.into_protobuf_encoding.length ≤ 42 →
      PeerId.from_public_key sha256 key = ⟨⟨identityCode, key.into_protobuf_encoding⟩⟩) ∧
    (key.into_protobuf_encoding.length = 42 →
      (PeerId.from_public_key sha256 key).multihash.code = identityCode) ∧
    (42 < key.into_protobuf_encoding.length →
      PeerId.from_public_key sha256 key =
        ⟨⟨sha2_256Code, sha256 key.into_protobuf_encoding⟩⟩) ∧
    (∀ key2 : PublicKey, key = key2 →
      PeerId.from_public_key sha256 key = PeerId.from_public_key sha256 key2) := by
  refine ⟨?_, ?_, ?_, ?_⟩
  · intro h
    simp [PeerId.from_public_key, MAX_INLINE_KEY_LENGTH, h]
  · intro h
    simp [PeerId.from_public_key, MAX_INLINE_KEY_LENGTH, h]
  · intro h
    have h' : ¬ key.into_protobuf_encoding.length ≤ MAX_INLINE_KEY_LENGTH := by
      simp [MAX_INLINE_KEY_LENGTH]; omega
    simp [PeerId.from_public_key, h']
  · intro key2 h
    rw [h]

/-- Witness for C1 at concrete keys on both sides of the threshold: a
32-byte Ed25519 key encodes to 36 bytes and inlines, a 39-byte synthetic
key encodes to 43 bytes and hashes. -/
theorem C1_from_public_key_inline_threshold_witness :
    (PublicKey.ed25519 (List.replicate 32 7)).into_protobuf_encoding.length ≤ 42 ∧
    PeerId.from_public_key (fun _ => List.replicate 32 0)
        (PublicKey.ed25519 (List.replicate 32 7)) =
      ⟨⟨identityCode, (PublicKey.ed25519 (List.replicate 32 7)).into_protobuf_encoding⟩⟩ ∧
    42 < (PublicKey.other 2 (List.replicate 39 1)).into_protobuf_encoding.length ∧
    PeerId.from_public_key (fun _ => List.replicate 32 0)
        (PublicKey.other 2 (List.replicate 39 1)) =
      ⟨⟨sha2_256Code, List.replicate 32 0⟩⟩ := by
  refine ⟨by decide, ?_, by decide, ?_⟩
  · exact (C1_from_public_key_inline_threshold (fun _ => List.replicate 32 0)
      (PublicKey.ed25519 (List.replicate 32 7))).1 (by decide)
  · exact ((C1_from_public_key_inline_threshold (fun _ => List.replicate 32 0)
      (PublicKey.other 2 (List.replicate 39 1))).2.2.1 (by decide)).trans (by decide)

/-! ## Claim C4 -/

/-- C4: `PeerId::from_multihash` accepts every SHA-256 multihash,
accepts an identity multihash exactly when its digest has at most 42
bytes, and in every other case returns the input multihash unchanged as
the error payload. -/
theorem C4_from_multihash_cases (mh : Multihash) (_hwf : mh.WF) :
    (mh.code = sha2_256Code → PeerId.from_multihash mh = .ok ⟨mh⟩) ∧
    (mh.code = identityCode →
      (PeerId.from_multihash mh = .ok ⟨mh⟩ ↔ mh.digest.length ≤ 42)) ∧
    (mh.code ≠ sha2_256Code ∧ ¬ (mh.code = identityCode ∧ mh.digest.length ≤ 42) →
      PeerId.from_multihash mh = .error mh) := by
  refine ⟨?_, ?_, ?_⟩
  · intro h
    simp [PeerId.from_multihash, h]
  · intro h
    have hne : mh.code ≠ sha2_256Code := by
      rw [h]; decide
    constructor
    · intro hok
      by_contra hlen
      simp [PeerId.from_multihash, hne, h, MAX_INLINE_KEY_LENGTH] at hok
      omega
    · intro hlen
      simp [PeerId.from_multihash, hne, h, MAX_INLINE_KEY_LENGTH, hlen]
  · intro ⟨h1, h2⟩
    simp only [MAX_INLINE_KEY_LENGTH, PeerId.from_multihash, h1, if_false]
    rw [if_neg (by exact fun hc => h2 ⟨hc.1, hc.2⟩)]

/-- Witness for C4 at concrete multihashes: a SHA-256 multihash is
accepted, an identity multihash of 43 bytes is rejected with the input
as payload. -/
theorem C4_from_multihash_cases_witness :
    PeerId.from_multihash ⟨sha2_256Code, List.replicate 32 0⟩ =
      .ok ⟨⟨sha2_256Code, List.replicate 32 0⟩⟩ ∧
    PeerId.from_multihash ⟨identityCode, List.replicate 43 0⟩ =
      .error ⟨identityCode, List.replicate 43 0⟩ := by
  constructor
  · exact (C4_from_multihash_cases ⟨sha2_256Code, List.replicate 32 0⟩ (by decide)).1 rfl
  · exact (C4_from_multihash_cases ⟨identityCode, List.replicate 43 0⟩
      (by decide)).2.2 (by decide)

/-! ## Base-58 (Bitcoin alphabet)

The bs58 crate: leading zero bytes become leading `1` characters, the
remaining bytes are read as a big-endian number and written in base 58. -/

/-- The Bitcoin base-58 alphabet. -/
def base58Alphabet : List Char :=
  "123456789ABCDEFGHJKLMNPQRSTUVWXYZabcdefghijkmnopqrstuvwxyz".data

/-- Character for a base-58 digit. -/
def base58Char (d : Nat) : Char := base58Alphabet.getD d '1'

/-- Digit for a base-58 character (`none` for characters outside the
alphabet, the decode error of the crate). -/
def base58Index (c : Char) : Option Nat := base58Alphabet.findIdx? (· = c)

/-- Base-58 encoding of a byte string. -/
def bs58Encode (bytes : List Nat) : List Char :=
  let zeros := (bytes.takeWhile (· = 0)).length
  List.replicate zeros '1' ++ (toDigitsBE 58 (ofDigitsBE 256 bytes)).map base58Char

/-- Digit list of a base-58 string, failing on the first invalid
character. -/
def base58DigitsOf : List Char → Option (List Nat)
  | [] => some []
  | c :: rest =>
    match base58Index c, base58DigitsOf rest with
    | some d, some ds => some (d :: ds)
    | _, _ => none

/-- Base-58 decoding: every leading `1` becomes a zero byte, the digit
string is read in base 58 and written out as big-endian bytes. -/
def bs58Decode (s : List Char) : Option (List Nat) :=
  match base58DigitsOf s with
  | none => none
  | some ds =>
    let zeros := (s.takeWhile (· = '1')).length
    some (List.replicate zeros 0 ++ toDigitsBE 256 (ofDigitsBE 58 ds))

/-- `PeerId::to_base58`. -/
def PeerId.to_base58 (p : PeerId) : String := String.mk (bs58Encode p.to_bytes)

/-- `FromStr for PeerId`: base-58 decode then `from_bytes` (errors
collapse to `none`). -/
def PeerId.fromStr (s : String) : Option PeerId :=
  match bs58Decode s.data with
  | none => none
  | some bytes => PeerId.from_bytes bytes

theorem ofDigitsBE_replicate_zero (b z : Nat) (l : List Nat) :
    ofDigitsBE b (List.replicate z 0 ++ l) = ofDigitsBE b l := by
  induction z with
  | zero => rfl
  | succ z ih => simpa [ofDigitsBE, List.replicate_succ] using ih

theorem ofDigitsBE_pos (b : Nat) (hb : 0 < b) (h t : List Nat) (hh : 0 < (h.headD 1)) :
    h ≠ [] → 0 < ofDigitsBE b (h ++ t) := by
  intro hne
  cases h with
  | nil => simp at hne
  | cons x xs =>
    simp only [List.headD_cons] at hh
    simp only [ofDigitsBE, List.cons_append, List.foldl_cons, Nat.zero_mul, Nat.zero_add]
    rw [foldl_mul_add]
    have : 0 < x * b ^ (xs ++ t).length := by positivity
    omega

theorem base58Index_char (d : Nat) (hd : d < 58) : base58Index (base58Char d) = some d := by
  revert d
  decide

theorem base58Char_ne_one (d : Nat) (hd : d < 58) (h0 : d ≠ 0) : base58Char d ≠ '1' := by
  revert d
  decide

theorem base58DigitsOf_append (a b : List Char) (da db : List Nat)
    (ha : base58DigitsOf a = some da) (hb : base58DigitsOf b = some db) :
    base58DigitsOf (a ++ b) = some (da ++ db) := by
  induction a generalizing da with
  | nil =>
    simp only [base58DigitsOf] at ha
    cases ha
    simpa using hb
  | cons c rest ih =>
    simp only [base58DigitsOf] at ha
    cases hidx : base58Index c <;> rw [hidx] at ha
    · simp at ha
    · cases hrest : base58DigitsOf rest <;> rw [hrest] at ha
      · simp at ha
      · simp only [Option.some.injEq] at ha
        subst ha
        simp only [List.append_eq, List.cons_append, base58DigitsOf, hidx, ih _ hrest]

theorem base58DigitsOf_map (ds : List Nat) (hd : ∀ d ∈ ds, d < 58) :
    base58DigitsOf (ds.map base58Char) = some ds := by
  induction ds with
  | nil => rfl
  | cons d rest ih =>
    simp only [List.map_cons, base58DigitsOf]
    rw [base58Index_char d (hd d (by simp)), ih (fun x hx => hd x (by simp [hx]))]

theorem base58DigitsOf_replicate_one (z : Nat) :
    base58DigitsOf (List.replicate z '1') = some (List.replicate z 0) := by
  induction z with
  | zero => rfl
  | succ z ih =>
    simp only [List.replicate_succ, base58DigitsOf, ih]
    rfl

theorem takeWhile_replicate_append (z : Nat) (l : List Char)
    (hl : ∀ c, l.head? = some c → c ≠ '1') :
    ((List.replicate z '1' ++ l).takeWhile (· = '1')).length = z := by
  induction z with
  | zero =>
    cases l with
    | nil => rfl
    | cons c rest =>
      have := hl c rfl
      simp [List.takeWhile, this]
  | succ z ih => simpa [List.replicate_succ, List.takeWhile] using ih

theorem bs58_roundtrip (bytes : List Nat) (hb : ∀ b ∈ bytes, b < 256) :
    bs58Decode (bs58Encode bytes) = some bytes := by
  have hsplit := List.takeWhile_append_dropWhile (p := fun b => decide (b = 0)) (l := bytes)
  set tw := bytes.takeWhile (· = 0) with htw
  set rest := bytes.dropWhile (· = 0) with hrest
  have htwrep : tw = List.replicate tw.length 0 := by
    apply List.eq_replicate_of_mem
    intro b hbm
    have := List.takeWhile_subset (p := fun b => decide (b = 0)) (l := bytes)
    have hp := List.mem_takeWhile_imp hbm
    simpa using hp
  have hrest_head : ∀ c, rest.head? = some c → c ≠ 0 := by
    intro c hc
    have h := List.head?_dropWhile_not (p := fun b => decide (b = 0)) (l := bytes)
    rw [← hrest, hc] at h
    simpa using h
  have hrest_lt : ∀ b ∈ rest, b < 256 := by
    intro b hbm
    exact hb b (List.dropWhile_subset _ hbm)
  have hn : ofDigitsBE 256 bytes = ofDigitsBE 256 rest := by
    conv_lhs => rw [← hsplit]
    rw [htwrep, ofDigitsBE_replicate_zero]
  -- the big-endian digits of the numeric part are exactly `rest`
  have hdig : toDigitsBE 256 (ofDigitsBE 256 rest) = rest := by
    cases hr : rest with
    | nil => simp [ofDigitsBE, toDigitsBE, toDigitsRev, toDigitsRevFuel]
    | cons x xs =>
      apply toDigitsBE_ofDigitsBE 256 (by omega)
      · intro d hdm
        exact hrest_lt d (by rw [hr]; exact hdm)
      · have hx : x ≠ 0 := by
          intro h0
          exact hrest_head x (by rw [hr]; rfl) h0
        simp [hx]
  unfold bs58Encode bs58Decode
  rw [← htw]
  have hdlt : ∀ d ∈ toDigitsBE 58 (ofDigitsBE 256 bytes), d < 58 :=
    toDigitsBE_lt 58 _ (by omega)
  rw [base58DigitsOf_append _ _ _ _ (base58DigitsOf_replicate_one tw.length)
    (base58DigitsOf_map _ hdlt)]
  simp only
  have hones : (((List.replicate tw.length '1' ++
      (toDigitsBE 58 (ofDigitsBE 256 bytes)).map base58Char)).takeWhile
        (· = '1')).length = tw.length := by
    apply takeWhile_replicate_append
    intro c hc hc1
    subst hc1
    cases hdigits : toDigitsBE 58 (ofDigitsBE 256 bytes) with
    | nil => rw [hdigits] at hc; simp at hc
    | cons d ds =>
      rw [hdigits] at hc
      simp only [List.map_cons, List.head?_cons, Option.some.injEq] at hc
      have hd58 : d < 58 := hdlt d (by rw [hdigits]; simp)
      have hdne : d ≠ 0 := by
        intro h0
        have hhead := toDigitsBE_head_ne_zero 58 (ofDigitsBE 256 bytes) (by omega) ?_
        · rw [hdigits, h0] at hhead
          simp at hhead
        · intro hn0
          rw [hn0] at hdigits
          simp [toDigitsBE, toDigitsRev, toDigitsRevFuel] at hdigits
      exact base58Char_ne_one d hd58 hdne hc
  rw [hones]
  rw [ofDigitsBE_replicate_zero, ofDigitsBE_toDigitsBE 58 _ (by omega)]
  rw [hn, hdig]
  rw [← htwrep]
  rw [hsplit]

theorem PeerId.to_bytes_lt (p : PeerId) (h : ∀ b ∈ p.multihash.digest, b < 256) :
    ∀ b ∈ p.to_bytes, b < 256 := by
  intro b hb
  unfold PeerId.to_bytes Multihash.to_bytes at hb
  rcases List.mem_append.mp hb with hb' | hb'
  · rcases List.mem_append.mp hb' with hb'' | hb''
    · exact varintEncode_bytes _ b hb''
    · exact varintEncode_bytes _ b hb''
  · exact h b hb'

/-! ## Claim C2 -/

/-- C2: for every PeerId `p` satisfying the type invariant — in
particular every PeerId produced by `PeerId::random`, whose output
always satisfies it — `from_bytes(p.to_bytes())` succeeds and returns
`p`, and parsing `p.to_base58()` through `FromStr` succeeds and returns
`p`. -/
theorem C2_peer_id_roundtrip (p : PeerId) (hwf : p.WF) :
    PeerId.from_bytes p.to_bytes = some p ∧
    PeerId.fromStr p.to_base58 = some p ∧
    ∀ draw : List Nat, draw.length = 32 → (∀ b ∈ draw, b < 256) →
      (PeerId.random draw).WF := by
  obtain ⟨⟨hlen, hbytes⟩, hcode⟩ := hwf
  have hmh : PeerId.from_multihash p.multihash = .ok ⟨p.multihash⟩ := by
    rcases hcode with h | ⟨h1, h2⟩
    · simp [PeerId.from_multihash, h]
    · have hne : p.multihash.code ≠ sha2_256Code := by
        rw [h1]; decide
      simp [PeerId.from_multihash, hne, h1, h2]
  have hfb : PeerId.from_bytes p.to_bytes = some p := by
    unfold PeerId.from_bytes PeerId.to_bytes
    rw [Multihash.from_to_bytes p.multihash hlen]
    simp only [hmh]
  refine ⟨hfb, ?_, ?_⟩
  · have hred : PeerId.fromStr p.to_base58 =
        match bs58Decode (bs58Encode p.to_bytes) with
        | none => none
        | some bytes => PeerId.from_bytes bytes := rfl
    rw [hred, bs58_roundtrip p.to_bytes (p.to_bytes_lt hbytes)]
    exact hfb
  · intro draw hdlen hdbytes
    refine ⟨⟨?_, hdbytes⟩, Or.inr ⟨rfl, ?_⟩⟩
    · simp [PeerId.random, hdlen]
    · simp [PeerId.random, MAX_INLINE_KEY_LENGTH, hdlen]

/-- Witness for C2 at the PeerId wrapping a concrete 32-byte random
draw. -/
theorem C2_peer_id_roundtrip_witness :
    (PeerId.random (List.replicate 32 0)).WF ∧
    PeerId.from_bytes (PeerId.random (List.replicate 32 0)).to_bytes =
      some (PeerId.random (List.replicate 32 0)) ∧
    PeerId.fromStr (PeerId.random (List.replicate 32 0)).to_base58 =
      some (PeerId.random (List.replicate 32 0)) :=
  ⟨by decide, (C2_peer_id_roundtrip _ (by decide)).1,
    (C2_peer_id_roundtrip _ (by decide)).2.1⟩

/-! ## Simple length-prefixed serializer (`simple_ser.rs`)

The Rust code binds intermediate values and mutates `self`; the
embedding is pure, so the single `pop_u16` call of the source appears
as repeated projections of the same pure call. -/

structure SimplePushSerializer where
  vec_data : List Nat
  version : Nat
  deriving DecidableEq, Repr

/-- `push_u16`: big-endian 2-byte push; the Rust argument is a `u16`. -/
def SimplePushSerializer.push_u16 (s : SimplePushSerializer) (data : Nat) :
    SimplePushSerializer :=
  { s with vec_data := s.vec_data ++ [data / 256, data % 256] }

/-- `push_vec`: push the length as `sz as u16` (reduction modulo 2^16 —
the 65536 bound is only a debug assertion) followed by the bytes. -/
def SimplePushSerializer.push_vec (s : SimplePushSerializer) (data : List Nat) :
    SimplePushSerializer :=
  { s.push_u16 (data.length % 65536) with
    vec_data := (s.push_u16 (data.length % 65536)).vec_data ++ data }

/-- `SimplePushSerializer::new`: starts with the version tag pushed. -/
def SimplePushSerializer.new (version : Nat) : SimplePushSerializer :=
  SimplePushSerializer.push_u16 { vec_data := [], version := version } version

def SimplePushSerializer.to_vec (s : SimplePushSerializer) : List Nat := s.vec_data

structure SimplePopSerializer where
  vec_data : List Nat
  version : Nat
  position : Nat
  deriving DecidableEq, Repr

/-- `pop_u16`: returns 0 and leaves the position unchanged when fewer
than two bytes remain, otherwise reads two big-endian bytes. -/
def SimplePopSerializer.pop_u16 (s : SimplePopSerializer) : Nat × SimplePopSerializer :=
  if s.position + 2 > s.vec_data.length then (0, s)
  else (s.vec_data.getD s.position 0 * 256 + s.vec_data.getD (s.position + 1) 0,
    { s with position := s.position + 2 })

/-- `SimplePopSerializer::new`: pops the version tag up front. -/
def SimplePopSerializer.new (vec : List Nat) : SimplePopSerializer :=
  { (SimplePopSerializer.mk vec 0 0).pop_u16.2 with
    version := (SimplePopSerializer.mk vec 0 0).pop_u16.1 }

/-- `pop_vec`: reads a 2-byte length; a zero length or a length running
past the end of the buffer yields the empty payload. -/
def SimplePopSerializer.pop_vec (s : SimplePopSerializer) : List Nat × SimplePopSerializer :=
  if s.pop_u16.1 = 0 ∨ s.pop_u16.2.position + s.pop_u16.1 > s.pop_u16.2.vec_data.length
  then ([], s.pop_u16.2)
  else ((s.pop_u16.2.vec_data.drop s.pop_u16.2.position).take s.pop_u16.1,
    { s.pop_u16.2 with position := s.pop_u16.2.position + s.pop_u16.1 })

def SimplePopSerializer.skip_u16 (s : SimplePopSerializer) : SimplePopSerializer :=
  { s with position := s.position + 2 }

def SimplePopSerializer.skip_vec (s : SimplePopSerializer) : SimplePopSerializer :=
  { s.pop_u16.2 with position := s.pop_u16.2.position + s.pop_u16.1 }

/-- A sequence of read-side operations, for stating safety over every
pop/skip schedule. -/
inductive PopOp where
  | popU16 | popVec | skipU16 | skipVec
  deriving DecidableEq, Repr

def runPopOps : List PopOp → SimplePopSerializer → SimplePopSerializer
  | [], s => s
  | .popU16 :: rest, s => runPopOps rest s.pop_u16.2
  | .popVec :: rest, s => runPopOps rest s.pop_vec.2
  | .skipU16 :: rest, s => runPopOps rest s.skip_u16
  | .skipVec :: rest, s => runPopOps rest s.skip_vec

theorem pop_u16_vec_data (s : SimplePopSerializer) : s.pop_u16.2.vec_data = s.vec_data := by
  unfold SimplePopSerializer.pop_u16
  split <;> rfl

theorem pop_u16_eq_of_in_range (s : SimplePopSerializer) (sz : Nat)
    (hr : s.position + 2 ≤ s.vec_data.length)
    (hval : s.vec_data.getD s.position 0 * 256 + s.vec_data.getD (s.position + 1) 0 = sz) :
    s.pop_u16 = (sz, { s with position := s.position + 2 }) := by
  unfold SimplePopSerializer.pop_u16
  rw [if_neg (by omega), hval]

theorem pop_vec_eq_of_pop_u16 (s : SimplePopSerializer) (sz : Nat)
    (s' : SimplePopSerializer) (h : s.pop_u16 = (sz, s')) :
    s.pop_vec = if sz = 0 ∨ s'.position + sz > s'.vec_data.length then ([], s')
      else ((s'.vec_data.drop s'.position).take sz,
        { s' with position := s'.position + sz }) := by
  unfold SimplePopSerializer.pop_vec
  rw [h]

/-! ## Claim C9 -/

/-- C9: the pop serializer is safe on every input and every pop/skip
schedule: `pop_u16` returns 0 with the position unchanged when fewer
than two bytes remain; `pop_vec` returns the empty payload when the
decoded length is 0 or runs past the end of the buffer, and any
non-empty payload it returns is a slice lying wholly inside the buffer;
constructing over a buffer shorter than two bytes yields version 0; and
every operation sequence is total and never writes the buffer. -/
theorem C9_pop_serializer_safety :
    (∀ vec : List Nat, vec.length < 2 → (SimplePopSerializer.new vec).version = 0) ∧
    (∀ s : SimplePopSerializer, s.position + 2 > s.vec_data.length → s.pop_u16 = (0, s)) ∧
    (∀ s : SimplePopSerializer,
      s.pop_u16.1 = 0 ∨ s.pop_u16.2.position + s.pop_u16.1 > s.vec_data.length →
      s.pop_vec = ([], s.pop_u16.2)) ∧
    (∀ s : SimplePopSerializer,
      s.pop_vec.1 = [] ∨
        (s.pop_u16.2.position + s.pop_u16.1 ≤ s.vec_data.length ∧
          s.pop_vec.1 = (s.vec_data.drop s.pop_u16.2.position).take s.pop_u16.1)) ∧
    (∀ ops : List PopOp, ∀ s : SimplePopSerializer,
      (runPopOps ops s).vec_data = s.vec_data) := by
  have hpop16 : ∀ s : SimplePopSerializer, s.position + 2 > s.vec_data.length →
      s.pop_u16 = (0, s) := by
    intro s hs
    unfold SimplePopSerializer.pop_u16
    rw [if_pos hs]
  refine ⟨?_, hpop16, ?_, ?_, ?_⟩
  · intro vec hlen
    unfold SimplePopSerializer.new
    rw [hpop16 (SimplePopSerializer.mk vec 0 0) (by show 0 + 2 > vec.length; omega)]
  · intro s hs
    rw [pop_vec_eq_of_pop_u16 s s.pop_u16.1 s.pop_u16.2 rfl,
      if_pos (by rw [pop_u16_vec_data s]; exact hs)]
  · intro s
    rw [pop_vec_eq_of_pop_u16 s s.pop_u16.1 s.pop_u16.2 rfl]
    split
    · exact Or.inl rfl
    · rename_i hcond
      rw [not_or, not_lt, pop_u16_vec_data s] at hcond
      exact Or.inr ⟨hcond.2, by rw [pop_u16_vec_data s]⟩
  · intro ops
    induction ops with
    | nil => intro s; rfl
    | cons op rest ih =>
      intro s
      cases op <;> simp only [runPopOps] <;> rw [ih]
      · exact pop_u16_vec_data s
      · rw [pop_vec_eq_of_pop_u16 s s.pop_u16.1 s.pop_u16.2 rfl]
        split
        · exact pop_u16_vec_data s
        · exact pop_u16_vec_data s
      · rfl
      · exact pop_u16_vec_data s

/-- Witness for C9 at a concrete 1-byte buffer and concrete serializer
states. -/
theorem C9_pop_serializer_safety_witness :
    (SimplePopSerializer.new [9]).version = 0 ∧
    (SimplePopSerializer.mk [1, 2, 3] 0 2).pop_u16 = (0, SimplePopSerializer.mk [1, 2, 3] 0 2) ∧
    (SimplePopSerializer.mk [0, 0, 5] 0 0).pop_vec =
      ([], SimplePopSerializer.mk [0, 0, 5] 0 2) := by
  refine ⟨C9_pop_serializer_safety.1 [9] (by decide),
    C9_pop_serializer_safety.2.1 _ (by decide), ?_⟩
  have h := C9_pop_serializer_safety.2.2.1 (SimplePopSerializer.mk [0, 0, 5] 0 0) (by decide)
  rw [h]
  decide

/-! ## Claim C10 -/

/-- C10: `push_vec` appends a 2-byte big-endian prefix equal to the
length reduced modulo 2^16 followed by the data bytes; for data of at
most 65535 bytes a subsequent `pop_vec` recovers the data exactly, while
for longer data the prefix value disagrees with the number of appended
bytes. -/
theorem C10_push_vec_length_prefix (v : Nat) (data : List Nat) (_hv : v < 65536) :
    ((SimplePushSerializer.new v).push_vec data).to_vec =
      [v / 256, v % 256, data.length % 65536 / 256, data.length % 65536 % 256] ++ data ∧
    (data.length ≤ 65535 →
      (SimplePopSerializer.new ((SimplePushSerializer.new v).push_vec data).to_vec).version
        = v ∧
      (SimplePopSerializer.new
          ((SimplePushSerializer.new v).push_vec data).to_vec).pop_vec.1 = data) ∧
    (65536 ≤ data.length → data.length % 65536 ≠ data.length) := by
  have hbuf : ((SimplePushSerializer.new v).push_vec data).to_vec =
      v / 256 :: v % 256 :: data.length % 65536 / 256 :: data.length % 65536 % 256 :: data := by
    simp [SimplePushSerializer.new, SimplePushSerializer.push_vec,
      SimplePushSerializer.push_u16, SimplePushSerializer.to_vec]
  refine ⟨by rw [hbuf]; rfl, ?_, ?_⟩
  · intro hle
    have hmod : data.length % 65536 = data.length := Nat.mod_eq_of_lt (by omega)
    rw [hbuf, hmod]
    have hu1 : (SimplePopSerializer.mk
        (v / 256 :: v % 256 :: data.length / 256 :: data.length % 256 :: data) 0 0).pop_u16 =
        (v / 256 * 256 + v % 256, SimplePopSerializer.mk
          (v / 256 :: v % 256 :: data.length / 256 :: data.length % 256 :: data) 0 2) :=
      pop_u16_eq_of_in_range _ _ (by show 0 + 2 ≤ data.length + 1 + 1 + 1 + 1; omega) rfl
    have hnew : SimplePopSerializer.new
        (v / 256 :: v % 256 :: data.length / 256 :: data.length % 256 :: data) =
        SimplePopSerializer.mk
          (v / 256 :: v % 256 :: data.length / 256 :: data.length % 256 :: data)
          (v / 256 * 256 + v % 256) 2 := by
      unfold SimplePopSerializer.new
      rw [hu1]
    refine ⟨?_, ?_⟩
    · rw [hnew]
      show v / 256 * 256 + v % 256 = v
      omega
    · rw [hnew]
      have hu2 : (SimplePopSerializer.mk
          (v / 256 :: v % 256 :: data.length / 256 :: data.length % 256 :: data)
          (v / 256 * 256 + v % 256) 2).pop_u16 =
          (data.length, SimplePopSerializer.mk
            (v / 256 :: v % 256 :: data.length / 256 :: data.length % 256 :: data)
            (v / 256 * 256 + v % 256) 4) := by
        refine pop_u16_eq_of_in_range _ _
          (by show 2 + 2 ≤ data.length + 1 + 1 + 1 + 1; omega) ?_
        show data.length / 256 * 256 + data.length % 256 = data.length
        omega
      rw [pop_vec_eq_of_pop_u16 _ _ _ hu2]
      by_cases h0 : data.length = 0
      · rw [if_pos (Or.inl h0)]
        exact (List.length_eq_zero.mp h0).symm
      · have hcond : ¬ (data.length = 0 ∨
            (SimplePopSerializer.mk
              (v / 256 :: v % 256 :: data.length / 256 :: data.length % 256 :: data)
              (v / 256 * 256 + v % 256) 4).position + data.length >
            (SimplePopSerializer.mk
              (v / 256 :: v % 256 :: data.length / 256 :: data.length % 256 :: data)
              (v / 256 * 256 + v % 256) 4).vec_data.length) := by
          rw [not_or]
          refine ⟨h0, ?_⟩
          show ¬ (4 + data.length > data.length + 1 + 1 + 1 + 1)
          omega
        rw [if_neg hcond]
        show List.take data.length data = data
        exact List.take_length data
  · intro hge heq
    have hlt : data.length % 65536 < 65536 := Nat.mod_lt _ (by omega)
    omega

/-- Witness for C10 at a concrete version and payload. -/
theorem C10_push_vec_length_prefix_witness :
    ((SimplePushSerializer.new 1).push_vec [5, 6]).to_vec = [0, 1, 0, 2, 5, 6] ∧
    (SimplePopSerializer.new ((SimplePushSerializer.new 1).push_vec [5, 6]).to_vec).version
      = 1 ∧
    (SimplePopSerializer.new
        ((SimplePushSerializer.new 1).push_vec [5, 6]).to_vec).pop_vec.1 = [5, 6] := by
  have h := C10_push_vec_length_prefix 1 [5, 6] (by omega)
  exact ⟨by rw [h.1]; rfl, (h.2.1 (by decide)).1, (h.2.1 (by decide)).2⟩

/-! ## Dot-separated label splitting

Support for the mDNS peer-name extraction
`record_value.rsplitn(4, '.').last()`.  `splitSep` and `joinSep` give a
reference decomposition of a string into separator-free labels;
`dropLastSep` is one right-split step; `rsplitLastFrag` iterates it, as
`rsplitn` does, keeping the remainder fragment. -/

def splitSep (sep : Char) : List Char → List (List Char)
  | [] => [[]]
  | c :: rest =>
    if c = sep then [] :: splitSep sep rest
    else
      match splitSep sep rest with
      | [] => [[c]]
      | h :: t => (c :: h) :: t

def joinSep (sep : Char) : List (List Char) → List Char
  | [] => []
  | [l] => l
  | l :: ls => l ++ sep :: joinSep sep ls

/-- One right-split step: drop the final label and its separator. -/
def dropLastSep (sep : Char) (s : List Char) : List Char :=
  ((s.reverse.dropWhile (· ≠ sep)).drop 1).reverse

/-- The remainder fragment of `rsplitn(m+1, sep)`: split from the right
at most `m` times and keep the left-most fragment (`rsplitn` yields
fragments right to left, so `.last()` is that remainder; the iterator
always yields at least one fragment, making the source's `None` arm
unreachable and the embedding total). -/
def rsplitLastFrag (sep : Char) : Nat → List Char → List Char
  | 0, s => s
  | m + 1, s => if sep ∈ s then rsplitLastFrag sep m (dropLastSep sep s) else s

theorem splitSep_ne_nil (sep : Char) (s : List Char) : splitSep sep s ≠ [] := by
  cases s with
  | nil => simp [splitSep]
  | cons c rest =>
    rw [splitSep]
    split
    · simp
    · split <;> simp

theorem joinSep_cons_ne_nil (sep : Char) (l : List Char) (ls : List (List Char))
    (h : ls ≠ []) : joinSep sep (l :: ls) = l ++ sep :: joinSep sep ls := by
  cases ls with
  | nil => exact absurd rfl h
  | cons x t => rfl

theorem joinSep_splitSep (sep : Char) (s : List Char) :
    joinSep sep (splitSep sep s) = s := by
  induction s with
  | nil => rfl
  | cons c rest ih =>
    rw [splitSep]
    by_cases hc : c = sep
    · simp only [hc, if_true]
      rw [joinSep_cons_ne_nil sep [] _ (splitSep_ne_nil sep rest), ih]
      simp [hc]
    · simp only [hc, if_false]
      cases hsp : splitSep sep rest with
      | nil => exact absurd hsp (splitSep_ne_nil sep rest)
      | cons h t =>
        rw [hsp] at ih
        cases t with
        | nil =>
          simp only [joinSep] at ih ⊢
          rw [ih]
        | cons t1 t2 =>
          rw [joinSep_cons_ne_nil sep (c :: h) _ (by simp),
            joinSep_cons_ne_nil sep h _ (by simp)] at *
          simp only [List.cons_append, List.cons.injEq] at *
          exact ⟨trivial, ih⟩

theorem splitSep_no_sep (sep : Char) (s : List Char) :
    ∀ l ∈ splitSep sep s, sep ∉ l := by
  induction s with
  | nil => simp [splitSep]
  | cons c rest ih =>
    rw [splitSep]
    by_cases hc : c = sep
    · simp only [hc, if_true]
      intro l hl
      rcases List.mem_cons.mp hl with h | h
      · simp [h]
      · exact ih l h
    · simp only [hc, if_false]
      cases hsp : splitSep sep rest with
      | nil => exact absurd hsp (splitSep_ne_nil sep rest)
      | cons h t =>
        intro l hl
        rcases List.mem_cons.mp hl with hh | hh
        · subst hh
          intro hmem
          rcases List.mem_cons.mp hmem with h1 | h1
          · exact hc h1.symm
          · exact ih h (by rw [hsp]; simp) h1
        · exact ih l (by rw [hsp]; simp [hh])

theorem splitSep_joinSep (sep : Char) (ls : List (List Char)) (hne : ls ≠ [])
    (hfree : ∀ l ∈ ls, sep ∉ l) : splitSep sep (joinSep sep ls) = ls := by
  induction ls with
  | nil => exact absurd rfl hne
  | cons l t ih =>
    cases t with
    | nil =>
      show splitSep sep (joinSep sep [l]) = [l]
      have hlf : sep ∉ l := hfree l (by simp)
      show splitSep sep l = [l]
      clear hfree ih hne
      induction l with
      | nil => rfl
      | cons c cs ihc =>
        rw [splitSep]
        rw [if_neg (fun hc => hlf (by simp [hc]))]
        rw [ihc (fun hm => hlf (by simp [hm]))]
    | cons t1 t2 =>
      rw [joinSep_cons_ne_nil sep l _ (by simp)]
      have hrec : splitSep sep (joinSep sep (t1 :: t2)) = t1 :: t2 :=
        ih (by simp) (fun x hx => hfree x (by simp [hx]))
      have hlf : sep ∉ l := hfree l (by simp)
      clear hfree ih hne
      induction l with
      | nil =>
        show splitSep sep (sep :: joinSep sep (t1 :: t2)) = [] :: t1 :: t2
        rw [splitSep, if_pos rfl, hrec]
      | cons c cs ihc =>
        rw [List.cons_append, splitSep]
        rw [if_neg (fun hc => hlf (by simp [hc]))]
        rw [ihc (fun hm => hlf (by simp [hm]))]

theorem dropWhile_ne_sep (sep : Char) (pre rest : List Char)
    (h : sep ∉ pre) :
    List.dropWhile (· ≠ sep) (pre ++ sep :: rest) = sep :: rest := by
  induction pre with
  | nil => simp [List.dropWhile]
  | cons c cs ih =>
    rw [List.cons_append, List.dropWhile]
    have hc : c ≠ sep := fun hc => h (by simp [hc])
    simp only [hc, decide_not]
    simpa using ih (fun hm => h (by simp [hm]))

theorem joinSep_append_singleton (sep : Char) (ls : List (List Char)) (lab : List Char)
    (hne : ls ≠ []) :
    joinSep sep (ls ++ [lab]) = joinSep sep ls ++ sep :: lab := by
  induction ls with
  | nil => exact absurd rfl hne
  | cons l t ih =>
    cases t with
    | nil => rfl
    | cons t1 t2 =>
      rw [List.cons_append, joinSep_cons_ne_nil sep l _ (by simp),
        joinSep_cons_ne_nil sep l _ (by simp), ih (by simp)]
      simp

theorem dropLastSep_join (sep : Char) (ls : List (List Char)) (lab : List Char)
    (hne : ls ≠ []) (hlab : sep ∉ lab) :
    dropLastSep sep (joinSep sep (ls ++ [lab])) = joinSep sep ls := by
  rw [joinSep_append_singleton sep ls lab hne]
  unfold dropLastSep
  rw [List.reverse_append, List.reverse_cons, List.append_assoc, List.singleton_append]
  rw [dropWhile_ne_sep sep lab.reverse _ (by simpa using hlab)]
  simp

theorem splitSep_of_not_mem (sep : Char) (s : List Char) (h : sep ∉ s) :
    splitSep sep s = [s] := by
  induction s with
  | nil => rfl
  | cons c cs ih =>
    rw [splitSep, if_neg (fun hc => h (by simp [hc])),
      ih (fun hm => h (by simp [hm]))]

theorem two_le_splitSep_of_mem (sep : Char) (s : List Char) (h : sep ∈ s) :
    2 ≤ (splitSep sep s).length := by
  induction s with
  | nil => simp at h
  | cons c cs ih =>
    rw [splitSep]
    by_cases hc : c = sep
    · simp only [hc, if_true, List.length_cons]
      have := List.length_pos.mpr (splitSep_ne_nil sep cs)
      omega
    · have hcs : sep ∈ cs := by
        rcases List.mem_cons.mp h with h1 | h1
        · exact absurd h1.symm hc
        · exact h1
      simp only [hc, if_false]
      cases hsp : splitSep sep cs with
      | nil => exact absurd hsp (splitSep_ne_nil sep cs)
      | cons h1 t =>
        have := ih hcs
        rw [hsp] at this
        simpa using this

theorem rsplitLastFrag_eq_take (sep : Char) (m : Nat) (s : List Char) :
    rsplitLastFrag sep m s =
      joinSep sep ((splitSep sep s).take
        (max 1 ((splitSep sep s).length - m))) := by
  induction m generalizing s with
  | zero =>
    have hk : 1 ≤ (splitSep sep s).length :=
      List.length_pos.mpr (splitSep_ne_nil sep s)
    rw [rsplitLastFrag]
    rw [show max 1 ((splitSep sep s).length - 0) = (splitSep sep s).length by omega]
    rw [List.take_of_length_le le_rfl, joinSep_splitSep]
  | succ m ih =>
    rw [rsplitLastFrag]
    by_cases hmem : sep ∈ s
    · rw [if_pos hmem]
      have hk : 2 ≤ (splitSep sep s).length := two_le_splitSep_of_mem sep s hmem
      have hne : splitSep sep s ≠ [] := splitSep_ne_nil sep s
      have hdecomp := List.dropLast_append_getLast hne
      have hdrop : dropLastSep sep s =
          joinSep sep (splitSep sep s).dropLast := by
        conv_lhs => rw [← joinSep_splitSep sep s, ← hdecomp]
        exact dropLastSep_join sep _ _
          (by
            intro hd
            have := congrArg List.length hd
            simp [List.length_dropLast] at this
            omega)
          (splitSep_no_sep sep s _ (List.getLast_mem hne))
      have hsplit' : splitSep sep (dropLastSep sep s) =
          (splitSep sep s).dropLast := by
        rw [hdrop]
        exact splitSep_joinSep sep _
          (by
            intro hd
            have := congrArg List.length hd
            simp [List.length_dropLast] at this
            omega)
          (fun l hl => splitSep_no_sep sep s l ((List.dropLast_sublist _).subset hl))
      rw [ih (dropLastSep sep s), hsplit']
      have hlen : (splitSep sep s).dropLast.length = (splitSep sep s).length - 1 :=
        List.length_dropLast _
      rw [hlen]
      congr 1
      rw [List.dropLast_eq_take, List.take_take]
      congr 1
      omega
    · rw [if_neg hmem, splitSep_of_not_mem sep s hmem, List.length_singleton,
        Nat.sub_eq_zero_of_le (by omega : 1 ≤ m + 1), Nat.max_zero]
      rfl

/-! ## DNSCurve base-32 -/

def dnscurveAlphabet : List Char := "0123456789bcdfghjklmnpqrstuvwxyz".data

/-- Index of a character in the DNSCurve alphabet; upper-case letters
translate to lower case as in the data_encoding specification. -/
def dnscurveIndex (c : Char) : Option Nat :=
  dnscurveAlphabet.findIdx? (· = c.toLower)

/-- The `k` low bits of `v`, least significant first. -/
def lowBitsLSB (k v : Nat) : List Bool :=
  (List.range k).map fun i => decide (v / 2 ^ i % 2 = 1)

/-- Value of a bit string read least-significant-bit first. -/
def bitsValLSB (bits : List Bool) : Nat :=
  bits.foldr (fun b acc => (if b then 1 else 0) + 2 * acc) 0

def chunksFuel {α : Type} (n : Nat) : Nat → List α → List (List α)
  | 0, _ => []
  | _ + 1, [] => []
  | fuel + 1, l => l.take n :: chunksFuel n fuel (l.drop n)

/-- The list cut into chunks of `n` (last chunk possibly shorter). -/
def chunksOf {α : Type} (n : Nat) (l : List α) : List (List α) :=
  chunksFuel n l.length l

/-- data_encoding BASE32_DNSCURVE decoding: symbols carry 5-bit values
packed least-significant-bit first; inputs whose length cannot arise
from an encoding and inputs with non-zero trailing bits are
rejected. -/
def base32DnscurveDecode (s : List Char) : Option (List Nat) :=
  match s.mapM dnscurveIndex with
  | none => none
  | some vs =>
    if s.length % 8 = 1 ∨ s.length % 8 = 3 ∨ s.length % 8 = 6 then none
    else
      let bits := (vs.map (lowBitsLSB 5)).flatten
      let nbytes := s.length * 5 / 8
      if (bits.drop (nbytes * 8)).any id then none
      else some ((chunksOf 8 (bits.take (nbytes * 8))).map bitsValLSB)

/-! ## mDNS packet model

The DNS wire parser is an external collaborator (the dns_parser
crate); packets enter the embedding already parsed, as the
`Option Packet` outcome of `Packet::parse`.  `decode_character_string`
(a helper of the crate's dns module, not among the provided sources)
and multiaddr parsing (the external multiaddr library composed with
`str::from_utf8`) are function arguments of the embedding. -/

structure SocketAddr where
  ip : Nat
  port : Nat
  deriving DecidableEq, Repr

structure DnsHeader where
  query : Bool
  id : Nat
  deriving DecidableEq, Repr

structure DnsQuestion where
  qname : String
  deriving DecidableEq, Repr

inductive RData where
  | ptr (value : String)
  | txt (strings : List (List Nat))
  | other
  deriving DecidableEq, Repr

structure ResourceRecord where
  name : String
  data : RData
  ttl : Nat
  deriving DecidableEq, Repr

structure Packet where
  header : DnsHeader
  questions : List DnsQuestion
  answers : List ResourceRecord
  additional : List ResourceRecord
  deriving DecidableEq, Repr

/-- Modelled from the spec: the libp2p service name constant (supplied
as a constant by the crate root, which is not among the provided
sources). -/
def SERVICE_NAME : String := "_p2p._udp.local"

/-- Modelled from the spec: the meta service-discovery name constant. -/
def META_QUERY_SERVICE : String := "_services._dns-sd._udp.local"

inductive MaProtocol where
  | p2p (peer_id : Multihash)
  | other (part : String)
  deriving DecidableEq, Repr

/-- A multiaddr: an opaque ordered list of protocol components, of
which only the trailing `p2p` component is inspected. -/
abbrev Multiaddr := List MaProtocol

/-- `Multiaddr::pop`: remove and return the last protocol component. -/
def Multiaddr.pop (a : Multiaddr) : Option MaProtocol × Multiaddr :=
  (a.getLast?, a.dropLast)

/-- The bytes of `"dnsaddr="`. -/
def dnsaddrTag : List Nat := [100, 110, 115, 97, 100, 100, 114, 61]

structure MdnsPeer where
  addrs : List Multiaddr
  peer_id : PeerId
  ttl : Nat
  deriving DecidableEq, Repr

/-- `MdnsPeer::new`: walk the additional records whose NAME matches the
PTR value and carry TXT data, decode each character string, keep the
`dnsaddr=` ones, parse the rest as a multiaddr, pop its trailing
component and require it to be a `p2p` multihash parsing to this peer's
id; the stored address is the popped (shortened) multiaddr. -/
def MdnsPeer.new (decodeCS : List Nat → Option (List Nat))
    (parseMA : List Nat → Option Multiaddr) (packet : Packet)
    (record_value : String) (my_peer_id : PeerId) (ttl : Nat) : MdnsPeer :=
  { addrs := ((packet.additional.filterMap fun add_record =>
        if add_record.name ≠ record_value then none
        else match add_record.data with
          | .txt strs => some strs
          | _ => none).flatten).filterMap fun txt =>
      match decodeCS txt with
      | none => none
      | some addr =>
        if addr.take 8 ≠ dnsaddrTag then none
        else match parseMA (addr.drop 8) with
          | none => none
          | some addr2 =>
            match (Multiaddr.pop addr2).1 with
            | some (.p2p mh) =>
              match PeerId.from_multihash mh with
              | .ok pid =>
                if pid ≠ my_peer_id then none else some (Multiaddr.pop addr2).2
              | .error _ => none
            | _ => none,
    peer_id := my_peer_id,
    ttl := ttl }

structure MdnsResponse where
  peers : List MdnsPeer
  from_addr : SocketAddr
  deriving DecidableEq, Repr

/-- `MdnsResponse::new`: scan the answers for PTR records named by the
service name; the peer-name token is the remainder fragment of
`rsplitn(4, '.')`, its dots removed (`retain`), decoded as
base32-dnscurve and parsed by `PeerId::from_bytes`; failures drop the
candidate. -/
def MdnsResponse.new (decodeCS : List Nat → Option (List Nat))
    (parseMA : List Nat → Option Multiaddr) (packet : Packet)
    (from_addr : SocketAddr) : MdnsResponse :=
  { peers := packet.answers.filterMap fun record =>
      if record.name ≠ SERVICE_NAME then none
      else match record.data with
        | .ptr record_value =>
          match base32DnscurveDecode
              ((rsplitLastFrag '.' 3 record_value.data).filter (· ≠ '.')) with
          | some bytes =>
            match PeerId.from_bytes bytes with
            | some id =>
              some (MdnsPeer.new decodeCS parseMA packet record_value id record.ttl)
            | none => none
          | none => none
        | _ => none,
    from_addr := from_addr }

inductive MdnsPacket where
  | query (from_addr : SocketAddr) (query_id : Nat)
  | response (resp : MdnsResponse)
  | serviceDiscovery (from_addr : SocketAddr) (query_id : Nat)
  deriving DecidableEq, Repr

/-- `MdnsPacket::new_from_bytes` on the outcome of the external DNS
parse: failed parses yield nothing; queries are classified by their
question names (service name first, then meta service discovery, else
dropped); non-queries always become a `Response`. -/
def MdnsPacket.new_from_bytes (decodeCS : List Nat → Option (List Nat))
    (parseMA : List Nat → Option Multiaddr) (parsed : Option Packet)
    (from_addr : SocketAddr) : Option MdnsPacket :=
  match parsed with
  | none => none
  | some packet =>
    if packet.header.query then
      if packet.questions.any (fun q => q.qname == SERVICE_NAME) then
        some (.query from_addr packet.header.id)
      else if packet.questions.any (fun q => q.qname == META_QUERY_SERVICE) then
        some (.serviceDiscovery from_addr packet.header.id)
      else none
    else some (.response (MdnsResponse.new decodeCS parseMA packet from_addr))

/-! ## Claim C6 -/

/-- C6: classification of inbound packets: a failed DNS parse yields no
packet; with the query flag set, a question naming the service yields a
`Query` (even when a meta-service-discovery question is also present),
otherwise a meta-service-discovery question yields `ServiceDiscovery`,
otherwise nothing; with the flag unset the packet always becomes a
`Response`. -/
theorem C6_packet_classification (decodeCS : List Nat → Option (List Nat))
    (parseMA : List Nat → Option Multiaddr) (from_addr : SocketAddr) :
    MdnsPacket.new_from_bytes decodeCS parseMA none from_addr = none ∧
    (∀ packet : Packet, packet.header.query = true →
      ((∃ q ∈ packet.questions, q.qname = SERVICE_NAME) →
        MdnsPacket.new_from_bytes decodeCS parseMA (some packet) from_addr =
          some (.query from_addr packet.header.id)) ∧
      ((∀ q ∈ packet.questions, q.qname ≠ SERVICE_NAME) →
        (∃ q ∈ packet.questions, q.qname = META_QUERY_SERVICE) →
        MdnsPacket.new_from_bytes decodeCS parseMA (some packet) from_addr =
          some (.serviceDiscovery from_addr packet.header.id)) ∧
      ((∀ q ∈ packet.questions, q.qname ≠ SERVICE_NAME) →
        (∀ q ∈ packet.questions, q.qname ≠ META_QUERY_SERVICE) →
        MdnsPacket.new_from_bytes decodeCS parseMA (some packet) from_addr = none)) ∧
    (∀ packet : Packet, packet.header.query = false →
      MdnsPacket.new_from_bytes decodeCS parseMA (some packet) from_addr =
        some (.response (MdnsResponse.new decodeCS parseMA packet from_addr))) := by
  refine ⟨rfl, ?_, ?_⟩
  · intro packet hq
    refine ⟨?_, ?_, ?_⟩
    · rintro ⟨q, hqm, hqn⟩
      have hany : packet.questions.any (fun q => q.qname == SERVICE_NAME) = true :=
        List.any_eq_true.mpr ⟨q, hqm, by simp [hqn]⟩
      simp [MdnsPacket.new_from_bytes, hq, hany]
    · rintro hnone ⟨q, hqm, hqn⟩
      have hany1 : packet.questions.any (fun q => q.qname == SERVICE_NAME) = false := by
        rw [List.any_eq_false]
        intro q1 hq1
        simpa using hnone q1 hq1
      have hany2 : packet.questions.any (fun q => q.qname == META_QUERY_SERVICE) = true :=
        List.any_eq_true.mpr ⟨q, hqm, by simp [hqn]⟩
      simp [MdnsPacket.new_from_bytes, hq, hany1, hany2]
    · intro h1 h2
      have hany1 : packet.questions.any (fun q => q.qname == SERVICE_NAME) = false := by
        rw [List.any_eq_false]
        intro q1 hq1
        simpa using h1 q1 hq1
      have hany2 : packet.questions.any (fun q => q.qname == META_QUERY_SERVICE) = false := by
        rw [List.any_eq_false]
        intro q1 hq1
        simpa using h2 q1 hq1
      simp [MdnsPacket.new_from_bytes, hq, hany1, hany2]
  · intro packet hq
    simp [MdnsPacket.new_from_bytes, hq]

/-- Witness for C6: a concrete query packet carrying both the service
name and the meta-service-discovery name is classified as a plain
`Query`. -/
theorem C6_packet_classification_witness :
    MdnsPacket.new_from_bytes (fun t => some t) (fun _ => none)
      (some (Packet.mk ⟨true, 7⟩ [⟨SERVICE_NAME⟩, ⟨META_QUERY_SERVICE⟩] [] []))
      ⟨0, 0⟩ = some (.query ⟨0, 0⟩ 7) :=
  ((C6_packet_classification _ _ _).2.1 _ rfl).1 ⟨⟨SERVICE_NAME⟩, by simp, rfl⟩

/-! ## Claim C7 -/

/-- The peer-id token under the claim's literal reading: the right-most
four dot-separated labels of the PTR value, remaining dots stripped. -/
def rightmost4Token (s : List Char) : List Char :=
  (joinSep '.' (((splitSep '.' s).reverse.take 4).reverse)).filter (· ≠ '.')

/-- The peer ids a response would contain under the claim's literal
token reading, with the unchanged downstream pipeline (base32-dnscurve
decode, then `PeerId::from_bytes`, dropping failures). -/
def claimC7Peers (packet : Packet) : List PeerId :=
  packet.answers.filterMap fun record =>
    if record.name ≠ SERVICE_NAME then none
    else match record.data with
      | .ptr record_value =>
        match base32DnscurveDecode (rightmost4Token record_value.data) with
        | some bytes => PeerId.from_bytes bytes
        | none => none
      | _ => none

/-- Counterexample to C7 as stated: for the canonical four-label PTR
value `0000._p2p._udp.local` the code extracts the token `0000` (the
remainder fragment, everything left of the three right-most labels) and
discovers the peer whose id bytes are `[0, 0]`, whereas a token formed
from the right-most four labels would retain `_p2p_udplocal`, fail
base-32 decoding, and discover no peer. -/
theorem C7_counterexample :
    (MdnsResponse.new (fun t => some t) (fun _ => none)
        (Packet.mk ⟨false, 0⟩ []
          [⟨SERVICE_NAME, .ptr "0000._p2p._udp.local", 120⟩] [])
        ⟨0, 0⟩).peers.map (fun p => p.peer_id) = [⟨⟨identityCode, []⟩⟩] ∧
    claimC7Peers (Packet.mk ⟨false, 0⟩ []
      [⟨SERVICE_NAME, .ptr "0000._p2p._udp.local", 120⟩] []) = [] := by
  decide

/-- C7 (amended): the peer-id token is the remainder fragment of the
at-most-four-way right split of the PTR value — the value with its
right-most three dot-separated labels removed, or its first label when
the value has fewer than three dots; remaining dots are stripped, the
token is decoded as base32-dnscurve and the bytes parsed via
`PeerId::from_bytes`, and a decoding or parsing failure drops the
candidate peer without producing an entry. -/
theorem C7_peer_name_extraction (decodeCS : List Nat → Option (List Nat))
    (parseMA : List Nat → Option Multiaddr) (packet : Packet)
    (from_addr : SocketAddr) :
    (MdnsResponse.new decodeCS parseMA packet from_addr).peers =
      packet.answers.filterMap fun record =>
        if record.name ≠ SERVICE_NAME then none
        else match record.data with
          | .ptr record_value =>
            match base32DnscurveDecode
                ((joinSep '.' ((splitSep '.' record_value.data).take
                  (max 1 ((splitSep '.' record_value.data).length - 3)))).filter
                  (· ≠ '.')) with
            | some bytes =>
              match PeerId.from_bytes bytes with
              | some id =>
                some (MdnsPeer.new decodeCS parseMA packet record_value id record.ttl)
              | none => none
            | none => none
          | _ => none := by
  simp only [MdnsResponse.new, rsplitLastFrag_eq_take]

/-! ## Claim C8 -/

/-- C8: every address stored for a discovered peer originated from a
TXT record of the additional section whose NAME matches the peer's PTR
value, through a character string starting with `dnsaddr=` whose
remainder parses to a multiaddr whose popped trailing component is a
`p2p` multihash parsing to the peer's own id; addresses failing any
check are dropped, and the stored address is the popped multiaddr. -/
theorem C8_peer_address_invariant (decodeCS : List Nat → Option (List Nat))
    (parseMA : List Nat → Option Multiaddr) (packet : Packet)
    (record_value : String) (my_peer_id : PeerId) (ttl : Nat) :
    ∀ a ∈ (MdnsPeer.new decodeCS parseMA packet record_value my_peer_id ttl).addrs,
      ∃ rec ∈ packet.additional, rec.name = record_value ∧
        ∃ strs, rec.data = .txt strs ∧
          ∃ t ∈ strs, ∃ d, decodeCS t = some d ∧ d.take 8 = dnsaddrTag ∧
            ∃ ma, parseMA (d.drop 8) = some ma ∧
              ∃ mh, (Multiaddr.pop ma).1 = some (.p2p mh) ∧
                PeerId.from_multihash mh = .ok my_peer_id ∧
                a = (Multiaddr.pop ma).2 := by
  intro a ha
  simp only [MdnsPeer.new] at ha
  rw [List.mem_filterMap] at ha
  obtain ⟨t, htm, hpipe⟩ := ha
  rw [List.mem_flatten] at htm
  obtain ⟨strs, hstrs, htin⟩ := htm
  rw [List.mem_filterMap] at hstrs
  obtain ⟨rec, hrecm, hrec⟩ := hstrs
  by_cases hname : rec.name = record_value
  swap
  · rw [if_pos hname] at hrec
    simp at hrec
  rw [if_neg (by simpa using hname)] at hrec
  cases hdata : rec.data with
  | txt strs2 =>
    rw [hdata] at hrec
    simp only [Option.some.injEq] at hrec
    subst hrec
    refine ⟨rec, hrecm, hname, strs2, hdata, t, htin, ?_⟩
    cases hdec : decodeCS t with
    | none => rw [hdec] at hpipe; simp at hpipe
    | some d =>
      rw [hdec] at hpipe
      simp only at hpipe
      by_cases htag : d.take 8 = dnsaddrTag
      swap
      · rw [if_pos (by simpa using htag)] at hpipe
        simp at hpipe
      rw [if_neg (by simpa using htag)] at hpipe
      refine ⟨d, rfl, htag, ?_⟩
      cases hma : parseMA (d.drop 8) with
      | none => rw [hma] at hpipe; simp at hpipe
      | some ma =>
        rw [hma] at hpipe
        simp only at hpipe
        refine ⟨ma, rfl, ?_⟩
        cases hpop : (Multiaddr.pop ma).1 with
        | none => rw [hpop] at hpipe; simp at hpipe
        | some proto =>
          rw [hpop] at hpipe
          cases proto with
          | other part => simp at hpipe
          | p2p mh =>
            simp only at hpipe
            cases hfm : PeerId.from_multihash mh with
            | error e => rw [hfm] at hpipe; simp at hpipe
            | ok pid =>
              rw [hfm] at hpipe
              simp only at hpipe
              by_cases hpid : pid = my_peer_id
              swap
              · rw [if_pos (by simpa using hpid)] at hpipe
                simp at hpipe
              rw [if_neg (by simpa using hpid)] at hpipe
              simp only [Option.some.injEq] at hpipe
              subst hpid
              exact ⟨mh, rfl, hfm, hpipe.symm⟩
  | ptr v => rw [hdata] at hrec; simp at hrec
  | other => rw [hdata] at hrec; simp at hrec

/-- Witness for C8 at a concrete response: one additional TXT record
carrying `dnsaddr=x` whose multiaddr ends in `/p2p/<id>`. -/
theorem C8_peer_address_invariant_witness :
    ([MaProtocol.other "ip4"] ∈ (MdnsPeer.new (fun t : List Nat => some t)
      (fun bs : List Nat => if bs = [120] then
        some [MaProtocol.other "ip4", MaProtocol.p2p ⟨identityCode, []⟩] else none)
      (Packet.mk ⟨false, 0⟩ [] []
        [⟨"rv", .txt [dnsaddrTag ++ [120]], 120⟩])
      "rv" ⟨⟨identityCode, []⟩⟩ 120).addrs) ∧
    (∃ rec ∈ (Packet.mk ⟨false, 0⟩ [] []
        [(⟨"rv", .txt [dnsaddrTag ++ [120]], 120⟩ : ResourceRecord)]).additional,
      rec.name = "rv" ∧
        ∃ strs, rec.data = .txt strs ∧
          ∃ t ∈ strs, ∃ d, (fun t : List Nat => some t) t = some d ∧
            d.take 8 = dnsaddrTag ∧
            ∃ ma, (fun bs : List Nat => if bs = [120] then
                some [MaProtocol.other "ip4", MaProtocol.p2p ⟨identityCode, []⟩]
              else none) (d.drop 8) = some ma ∧
              ∃ mh, (Multiaddr.pop ma).1 = some (.p2p mh) ∧
                PeerId.from_multihash mh = .ok ⟨⟨identityCode, []⟩⟩ ∧
                [MaProtocol.other "ip4"] = (Multiaddr.pop ma).2) := by
  refine ⟨by decide, ?_⟩
  exact C8_peer_address_invariant (fun t : List Nat => some t)
    (fun bs : List Nat => if bs = [120] then
      some [MaProtocol.other "ip4", MaProtocol.p2p ⟨identityCode, []⟩] else none)
    (Packet.mk ⟨false, 0⟩ [] [] [⟨"rv", .txt [dnsaddrTag ++ [120]], 120⟩])
    "rv" ⟨⟨identityCode, []⟩⟩ 120 [MaProtocol.other "ip4"] (by decide)

/-! ## Claim C5 -/

/-- `Code::try_from` on a multihash code.  The crate's code table also
contains further hash codes, but a `PeerId` (whose constructors admit
only identity and SHA-256) can never carry one of them, so the
embedding restricts to the reachable set. -/
def Code.tryFrom (code : Nat) : Option Nat :=
  if code = identityCode ∨ code = sha2_256Code then some code else none

/-- `PeerId::is_public_key`: re-encode the key and digest it with this
PeerId's own code, comparing multihashes.  Two panic sources exist: the
source discharges an unsupported code with `.expect`, and
`alg.digest(&enc)` panics when an identity digest overflows the crate's
64-byte allocation; both are modelled as the outer `none`, while a
normal return is `some (Some b)`. -/
def PeerId.is_public_key (sha256 : List Nat → List Nat) (p : PeerId) (k : PublicKey) :
    Option (Option Bool) :=
  match Code.tryFrom p.multihash.code with
  | none => none
  | some alg =>
    match codeDigest sha256 alg k.into_protobuf_encoding with
    | none => none
    | some mh => some (some (decide (mh = p.multihash)))

/-- C5: the claim's "returns Some and does not panic" fails on the
code.  At the failing input — a wellformed inlined identity PeerId
checked against a key whose canonical encoding has 298 bytes, beyond
the identity hasher's 64-byte allocation — `is_public_key` panics
inside `alg.digest(&enc)` (the embedding's `none`) instead of
returning `Some`, although the function's documentation promises a
`Some` outcome there; with a key whose encoding fits the allocation the
same PeerId receives `Some` of the equality check as described. -/
theorem C5_is_public_key_panics_on_oversized_key :
    (⟨⟨identityCode,
      (PublicKey.ed25519 (List.replicate 32 7)).into_protobuf_encoding⟩⟩ : PeerId).WF ∧
    (PublicKey.other 3 (List.replicate 294 1)).into_protobuf_encoding.length = 298 ∧
    PeerId.is_public_key (fun _ => List.replicate 32 0)
      ⟨⟨identityCode, (PublicKey.ed25519 (List.replicate 32 7)).into_protobuf_encoding⟩⟩
      (PublicKey.other 3 (List.replicate 294 1)) = none ∧
    PeerId.is_public_key (fun _ => List.replicate 32 0)
      ⟨⟨identityCode, (PublicKey.ed25519 (List.replicate 32 7)).into_protobuf_encoding⟩⟩
      (PublicKey.ed25519 (List.replicate 32 7)) = some (some true) := by
  decide

/-! ## Bit-level utilities for RFC 4648 base-32 -/

/-- The `k` bits of `v`, most significant first. -/
def bitsBE (k v : Nat) : List Bool :=
  (List.range k).map fun i => decide (v / 2 ^ (k - 1 - i) % 2 = 1)

/-- Value of a bit string read most-significant-bit first. -/
def bitsValBE (bits : List Bool) : Nat :=
  bits.foldl (fun acc b => 2 * acc + if b then 1 else 0) 0

theorem bitsBE_length (k v : Nat) : (bitsBE k v).length = k := by
  simp [bitsBE]

theorem foldl_bits_lt (l : List Bool) : ∀ a : Nat,
    l.foldl (fun acc b => 2 * acc + if b then 1 else 0) a < (a + 1) * 2 ^ l.length := by
  induction l with
  | nil => intro a; simp
  | cons b t ih =>
    intro a
    simp only [List.foldl_cons, List.length_cons]
    calc List.foldl (fun acc b => 2 * acc + if b then 1 else 0)
          (2 * a + if b then 1 else 0) t
        < (2 * a + (if b then 1 else 0) + 1) * 2 ^ t.length := ih _
      _ ≤ ((a + 1) * 2) * 2 ^ t.length :=
          Nat.mul_le_mul_right _ (by split <;> omega)
      _ = (a + 1) * 2 ^ (t.length + 1) := by ring

theorem bitsValBE_lt (l : List Bool) : bitsValBE l < 2 ^ l.length := by
  simpa [bitsValBE] using foldl_bits_lt l 0

theorem bitsValBE_bitsBE_byte (v : Nat) (hv : v < 256) :
    bitsValBE (bitsBE 8 v) = v := by
  have h : ∀ w : Fin 256, bitsValBE (bitsBE 8 w.val) = w.val := by decide
  exact h ⟨v, hv⟩

theorem bitsBE_bitsValBE_five (a b c d e : Bool) :
    bitsBE 5 (bitsValBE [a, b, c, d, e]) = [a, b, c, d, e] := by
  revert a b c d e
  decide

theorem length_five_destruct {α : Type} (l : List α) (h : l.length = 5) :
    ∃ a b c d e, l = [a, b, c, d, e] := by
  rcases l with _ | ⟨a, l⟩
  · simp at h
  rcases l with _ | ⟨b, l⟩
  · simp at h
  rcases l with _ | ⟨c, l⟩
  · simp at h
  rcases l with _ | ⟨d, l⟩
  · simp at h
  rcases l with _ | ⟨e, l⟩
  · simp at h
  rcases l with _ | ⟨f, l⟩
  · exact ⟨a, b, c, d, e, rfl⟩
  · simp at h

theorem flatten_map_length_const {α β : Type} (f : α → List β) (n : Nat)
    (hf : ∀ x, (f x).length = n) (l : List α) :
    ((l.map f).flatten).length = n * l.length := by
  induction l with
  | nil => simp
  | cons x t ih =>
    simp only [List.map_cons, List.flatten_cons, List.length_append, ih, hf, List.length_cons]
    ring

theorem chunksFuel_cons_step {α : Type} (n fuel : Nat) (x : α) (xs : List α) :
    chunksFuel n (fuel + 1) (x :: xs) =
      (x :: xs).take n :: chunksFuel n fuel ((x :: xs).drop n) := rfl

theorem chunksFuel_congr {α : Type} (n : Nat) (hn : 0 < n) :
    ∀ fuel1 fuel2 (l : List α), l.length ≤ fuel1 → l.length ≤ fuel2 →
      chunksFuel n fuel1 l = chunksFuel n fuel2 l := by
  intro fuel1
  induction fuel1 with
  | zero =>
    intro fuel2 l h1 h2
    have hl : l = [] := List.eq_nil_of_length_eq_zero (by omega)
    subst hl
    cases fuel2 <;> rfl
  | succ f1 ih =>
    intro fuel2 l h1 h2
    cases l with
    | nil => cases fuel2 <;> rfl
    | cons x t =>
      cases fuel2 with
      | zero => simp at h2
      | succ f2 =>
        rw [chunksFuel_cons_step, chunksFuel_cons_step]
        congr 1
        apply ih
        · simp only [List.length_drop, List.length_cons] at *
          omega
        · simp only [List.length_drop, List.length_cons] at *
          omega

theorem chunksOf_cons {α : Type} (n : Nat) (hn : 0 < n) (c rest : List α)
    (hc : c.length = n) : chunksOf n (c ++ rest) = c :: chunksOf n rest := by
  have hne : c ≠ [] := by
    intro h
    rw [h] at hc
    simp at hc
    omega
  obtain ⟨x, ct, rfl⟩ := List.exists_cons_of_ne_nil hne
  show chunksFuel n (x :: (ct ++ rest)).length (x :: (ct ++ rest)) = _
  rw [show (x :: (ct ++ rest)).length = (ct ++ rest).length + 1 from rfl,
    chunksFuel_cons_step]
  congr 1
  · show (x :: ct ++ rest).take n = x :: ct
    rw [← hc]
    exact List.take_left (x :: ct) rest
  · have hdrop : (x :: ct ++ rest).drop n = rest := by
      rw [← hc]
      exact List.drop_left (x :: ct) rest
    show chunksFuel n (ct ++ rest).length ((x :: ct ++ rest).drop n) = chunksOf n rest
    rw [hdrop]
    apply chunksFuel_congr n hn
    · simp
    · exact le_rfl

theorem chunksOf_flatten {α : Type} (n : Nat) (hn : 0 < n) (ls : List (List α))
    (h : ∀ c ∈ ls, c.length = n) : chunksOf n ls.flatten = ls := by
  induction ls with
  | nil => rfl
  | cons c t ih =>
    rw [List.flatten_cons, chunksOf_cons n hn c t.flatten (h c (by simp))]
    rw [ih (fun x hx => h x (by simp [hx]))]

theorem flatten_chunksFuel {α : Type} (n : Nat) (hn : 0 < n) :
    ∀ fuel (l : List α), l.length ≤ fuel → (chunksFuel n fuel l).flatten = l := by
  intro fuel
  induction fuel with
  | zero =>
    intro l h
    have hl : l = [] := List.eq_nil_of_length_eq_zero (by omega)
    subst hl
    rfl
  | succ f ih =>
    intro l h
    cases l with
    | nil => rfl
    | cons x t =>
      rw [chunksFuel_cons_step, List.flatten_cons, ih _ (by
        simp only [List.length_drop, List.length_cons] at *
        omega)]
      exact List.take_append_drop n (x :: t)

theorem flatten_chunksOf {α : Type} (n : Nat) (hn : 0 < n) (l : List α) :
    (chunksOf n l).flatten = l :=
  flatten_chunksFuel n hn l.length l le_rfl

theorem chunksFuel_length_dvd {α : Type} (n : Nat) (hn : 0 < n) :
    ∀ fuel (l : List α), l.length ≤ fuel → n ∣ l.length →
      (chunksFuel n fuel l).length = l.length / n := by
  intro fuel
  induction fuel with
  | zero =>
    intro l h _
    have hl : l = [] := List.eq_nil_of_length_eq_zero (by omega)
    subst hl
    simp [chunksFuel]
  | succ f ih =>
    intro l h hdvd
    cases l with
    | nil => simp [chunksFuel]
    | cons x t =>
      obtain ⟨m, hm⟩ := hdvd
      have hm1 : 1 ≤ m := by
        by_contra hc
        have hm0 : m = 0 := by omega
        rw [hm0] at hm
        simp at hm
      obtain ⟨m_pred, rfl⟩ : ∃ m2, m = m2 + 1 := ⟨m - 1, by omega⟩
      rw [Nat.mul_succ] at hm
      have hdl : ((x :: t).drop n).length = n * m_pred := by
        simp only [List.length_drop]
        omega
      rw [chunksFuel_cons_step, List.length_cons]
      rw [ih _ (by simp only [List.length_drop, List.length_cons] at *; omega) ⟨m_pred, hdl⟩]
      rw [hdl, hm, Nat.mul_div_cancel_left _ hn, ← Nat.mul_succ,
        Nat.mul_div_cancel_left _ hn]

theorem chunksOf_length_dvd {α : Type} (n : Nat) (hn : 0 < n) (l : List α)
    (hdvd : n ∣ l.length) : (chunksOf n l).length = l.length / n :=
  chunksFuel_length_dvd n hn l.length l le_rfl hdvd

theorem chunksFuel_mem_length {α : Type} (n : Nat) (hn : 0 < n) :
    ∀ fuel (l : List α), l.length ≤ fuel → n ∣ l.length →
      ∀ c ∈ chunksFuel n fuel l, c.length = n := by
  intro fuel
  induction fuel with
  | zero =>
    intro l h _
    have hl : l = [] := List.eq_nil_of_length_eq_zero (by omega)
    subst hl
    simp [chunksFuel]
  | succ f ih =>
    intro l h hdvd
    cases l with
    | nil => simp [chunksFuel]
    | cons x t =>
      obtain ⟨m, hm⟩ := hdvd
      have hm1 : 1 ≤ m := by
        by_contra hc
        have hm0 : m = 0 := by omega
        rw [hm0] at hm
        simp at hm
      obtain ⟨m_pred, rfl⟩ : ∃ m2, m = m2 + 1 := ⟨m - 1, by omega⟩
      rw [Nat.mul_succ] at hm
      have hdl : ((x :: t).drop n).length = n * m_pred := by
        simp only [List.length_drop]
        omega
      rw [chunksFuel_cons_step]
      intro c hc
      rcases List.mem_cons.mp hc with h1 | h1
      · subst h1
        simp only [List.length_take, List.length_cons]
        simp only [List.length_cons] at hm
        omega
      · exact ih _ (by simp only [List.length_drop, List.length_cons] at *; omega)
          ⟨m_pred, hdl⟩ c h1

theorem chunksOf_mem_length {α : Type} (n : Nat) (hn : 0 < n) (l : List α)
    (hdvd : n ∣ l.length) : ∀ c ∈ chunksOf n l, c.length = n :=
  chunksFuel_mem_length n hn l.length l le_rfl hdvd

theorem flatten_take_chunks {α : Type} (n : Nat) (ls : List (List α))
    (h : ∀ c ∈ ls, c.length = n) (k : Nat) :
    (ls.take k).flatten = ls.flatten.take (k * n) := by
  induction ls generalizing k with
  | nil => simp
  | cons c t ih =>
    cases k with
    | zero => simp
    | succ k =>
      rw [List.take_succ_cons, List.flatten_cons, List.flatten_cons,
        List.take_append_eq_append_take]
      have hcl : c.length = n := h c (by simp)
      have h1 : List.take ((k + 1) * n) c = c :=
        List.take_of_length_le
          (by rw [hcl]; exact Nat.le_mul_of_pos_left n (Nat.succ_pos k))
      rw [h1, hcl, Nat.succ_mul, Nat.add_sub_cancel,
        ih (fun x hx => h x (by simp [hx])) k]

/-! ## RFC 4648 base-32 and the onion-v3 rendering -/

def base32Alphabet : List Char := "ABCDEFGHIJKLMNOPQRSTUVWXYZ234567".data

def base32LowerAlphabet : List Char := "abcdefghijklmnopqrstuvwxyz234567".data

/-- The bit stream of a byte string, each byte contributing eight bits
most-significant first. -/
def base32Bits (bytes : List Nat) : List Bool :=
  (bytes.map (bitsBE 8)).flatten

/-- The symbol part of data_encoding BASE32: 5-bit groups (zero-padded
to a whole group) mapped through the alphabet. -/
def base32Body (bytes : List Nat) : List Char :=
  (chunksOf 5 (base32Bits bytes ++
    List.replicate ((5 - (base32Bits bytes).length % 5) % 5) false)).map
    fun g => base32Alphabet.getD (bitsValBE g) ' '

/-- data_encoding BASE32 encode, with `=` padding to a multiple of
eight characters (none arises for the 35-byte onion input). -/
def base32Encode (bytes : List Nat) : List Char :=
  base32Body bytes ++ List.replicate ((8 - (base32Body bytes).length % 8) % 8) '='

/-- Base-32 decoding of a lower-case prefix of an encoded string,
keeping the whole bytes its bits determine — the reading under which
the spec's first-52-characters property decodes back the key. -/
def base32LowerDecodeTrunc (s : List Char) : Option (List Nat) :=
  match s.mapM (fun c => base32LowerAlphabet.findIdx? (· = c)) with
  | none => none
  | some vs =>
    some ((chunksOf 8 (((vs.map (bitsBE 5)).flatten).take
      (s.length * 5 / 8 * 8))).map bitsValBE)

/-- The bytes of `".onion checksum"`. -/
def onionChecksumPrefixBytes : List Nat :=
  [46, 111, 110, 105, 111, 110, 32, 99, 104, 101, 99, 107, 115, 117, 109]

/-- `PeerId::as_dalek_pubkey`: succeeds with the raw 32 key bytes only
for an identity multihash whose digest decodes to the Ed25519 variant;
all error variants collapse to `none`. -/
def PeerId.as_dalek_pubkey (p : PeerId) : Option (List Nat) :=
  if p.multihash.code = identityCode then
    match PublicKey.from_protobuf_encoding p.multihash.digest with
    | some (.ed25519 k) => some k
    | _ => none
  else none

/-- `PeerId::onion_v3_from_pubkey`: key bytes, the first two bytes of
`SHA3-256(".onion checksum" || key || 0x03)` and the version byte 0x03,
base-32 encoded and lower-cased.  SHA3-256 is the external sha3 crate,
passed as a function; the source's `checksum[0]`, `checksum[1]`
indexing appears as `take 2` (the hash always returns 32 bytes). -/
def PeerId.onion_v3_from_pubkey (sha3_256 : List Nat → List Nat)
    (pub_key : List Nat) : String :=
  String.mk ((base32Encode (pub_key ++
    (sha3_256 (onionChecksumPrefixBytes ++ pub_key ++ [0x03])).take 2 ++
    [0x03])).map Char.toLower)

/-- `PeerId::as_onion_address`. -/
def PeerId.as_onion_address (sha3_256 : List Nat → List Nat) (p : PeerId) :
    Option String :=
  match p.as_dalek_pubkey with
  | none => none
  | some pk => some (PeerId.onion_v3_from_pubkey sha3_256 pk)

theorem base32_lower_idx (v : Nat) (hv : v < 32) :
    base32LowerAlphabet.findIdx?
      (· = Char.toLower (base32Alphabet.getD v ' ')) = some v := by
  have h : ∀ w : Fin 32, base32LowerAlphabet.findIdx?
      (· = Char.toLower (base32Alphabet.getD w.val ' ')) = some w.val := by decide
  exact h ⟨v, hv⟩

theorem base32_toLower_idem (v : Nat) (hv : v < 32) :
    Char.toLower (Char.toLower (base32Alphabet.getD v ' ')) =
      Char.toLower (base32Alphabet.getD v ' ') := by
  have h : ∀ w : Fin 32, Char.toLower (Char.toLower (base32Alphabet.getD w.val ' ')) =
      Char.toLower (base32Alphabet.getD w.val ' ') := by decide
  exact h ⟨v, hv⟩

theorem mapM_option_of_forall {α β : Type} (f : α → Option β) (g : α → β)
    (l : List α) (h : ∀ a ∈ l, f a = some (g a)) : l.mapM f = some (l.map g) := by
  induction l with
  | nil => rfl
  | cons a t ih =>
    rw [List.mapM_cons, h a (by simp), ih (fun x hx => h x (by simp [hx]))]
    rfl

theorem base32Bits_length (bytes : List Nat) :
    (base32Bits bytes).length = 8 * bytes.length := by
  unfold base32Bits
  exact flatten_map_length_const (bitsBE 8) 8 (fun x => bitsBE_length 8 x) bytes

theorem base32Body_35 (addr : List Nat) (hlen : addr.length = 35) :
    base32Body addr = (chunksOf 5 (base32Bits addr)).map
      (fun g => base32Alphabet.getD (bitsValBE g) ' ') := by
  unfold base32Body
  rw [base32Bits_length addr, hlen]
  norm_num

theorem base32Body_35_length (addr : List Nat) (hlen : addr.length = 35) :
    (base32Body addr).length = 56 := by
  rw [base32Body_35 addr hlen, List.length_map,
    chunksOf_length_dvd 5 (by omega) _ (by rw [base32Bits_length, hlen]; norm_num),
    base32Bits_length, hlen]

theorem base32Encode_35 (addr : List Nat) (hlen : addr.length = 35) :
    base32Encode addr = base32Body addr := by
  unfold base32Encode
  rw [base32Body_35_length addr hlen]
  norm_num

theorem mapM_map_option {α β γ : Type} (h : α → β) (f : β → Option γ) (g : α → γ)
    (l : List α) (hall : ∀ a ∈ l, f (h a) = some (g a)) :
    (l.map h).mapM f = some (l.map g) := by
  induction l with
  | nil => rfl
  | cons a t ih =>
    rw [List.map_cons, List.mapM_cons, hall a (by simp),
      ih (fun x hx => hall x (by simp [hx]))]
    rfl

theorem base32_onion_decode (k rest : List Nat) (hklen : k.length = 32)
    (hrlen : rest.length = 3) (hkbytes : ∀ b ∈ k, b < 256) :
    base32LowerDecodeTrunc
      (((base32Encode (k ++ rest)).map Char.toLower).take 52) = some k := by
  have hlen : (k ++ rest).length = 35 := by simp [hklen, hrlen]
  have hbitsl : (base32Bits (k ++ rest)).length = 280 := by
    rw [base32Bits_length, hlen]
  have hdvd : (5 : Nat) ∣ (base32Bits (k ++ rest)).length := by
    rw [hbitsl]
    norm_num
  have hglen : ∀ g ∈ chunksOf 5 (base32Bits (k ++ rest)), g.length = 5 :=
    chunksOf_mem_length 5 (by omega) _ hdvd
  have hgcount : (chunksOf 5 (base32Bits (k ++ rest))).length = 56 := by
    rw [chunksOf_length_dvd 5 (by omega) _ hdvd, hbitsl]
  rw [base32Encode_35 _ hlen, base32Body_35 _ hlen, List.map_map, ← List.map_take]
  have hinlen : ((chunksOf 5 (base32Bits (k ++ rest))).take 52).length = 52 := by
    rw [List.length_take, hgcount]
    decide
  unfold base32LowerDecodeTrunc
  rw [mapM_map_option (Char.toLower ∘ fun g => base32Alphabet.getD (bitsValBE g) ' ')
    (fun c => base32LowerAlphabet.findIdx? (· = c)) (fun g => bitsValBE g) _ (by
      intro g hg
      have hg5 : g.length = 5 := hglen g (List.take_subset 52 _ hg)
      have hv : bitsValBE g < 32 := by
        have hlt := bitsValBE_lt g
        rw [hg5] at hlt
        simpa using hlt
      exact base32_lower_idx _ hv)]
  simp only [List.length_map, hinlen, List.map_map]
  have hround : ((chunksOf 5 (base32Bits (k ++ rest))).take 52).map
      (bitsBE 5 ∘ fun g => bitsValBE g) =
      (chunksOf 5 (base32Bits (k ++ rest))).take 52 := by
    have hcongr := List.map_congr_left (l := (chunksOf 5 (base32Bits (k ++ rest))).take 52)
      (f := bitsBE 5 ∘ fun g => bitsValBE g) (g := id) ?_
    · rw [hcongr, List.map_id]
    · intro g hg
      obtain ⟨a, b, c, d, e, rfl⟩ :=
        length_five_destruct g (hglen g (List.take_subset 52 _ hg))
      exact bitsBE_bitsValBE_five a b c d e
  rw [hround]
  rw [flatten_take_chunks 5 _ hglen 52, flatten_chunksOf 5 (by omega)]
  rw [show (52 * 5 / 8 * 8 : Nat) = 256 from rfl, List.take_take,
    show min 256 (52 * 5) = 256 from rfl]
  have hsplit : base32Bits (k ++ rest) = base32Bits k ++ base32Bits rest := by
    unfold base32Bits
    rw [List.map_append, List.flatten_append]
  have hbk : (base32Bits k).length = 256 := by rw [base32Bits_length, hklen]
  have htake256 : (base32Bits (k ++ rest)).take 256 = base32Bits k := by
    rw [hsplit, ← hbk]
    exact List.take_left _ _
  rw [htake256]
  have hbyteglen : ∀ g ∈ k.map (bitsBE 8), g.length = 8 := by
    intro g hg
    rw [List.mem_map] at hg
    obtain ⟨b, _, rfl⟩ := hg
    exact bitsBE_length 8 b
  have hchunks8 : chunksOf 8 (base32Bits k) = k.map (bitsBE 8) := by
    unfold base32Bits
    exact chunksOf_flatten 8 (by omega) _ hbyteglen
  rw [hchunks8, List.map_map]
  have hcongr2 := List.map_congr_left (l := k)
    (f := bitsValBE ∘ bitsBE 8) (g := id) ?_
  · rw [hcongr2, List.map_id]
  · intro b hb
    exact bitsValBE_bitsBE_byte b (hkbytes b hb)

/-! ## Claim C3 -/

/-- C3: `as_onion_address` succeeds exactly when the multihash code is
identity and the digest decodes to the Ed25519 key variant; the
returned string is the lower-cased base-32 encoding of the 35 bytes
key ‖ first-two-checksum-bytes ‖ 0x03, where the checksum is
`SHA3-256(".onion checksum" ‖ key ‖ 0x03)`; consequently the string has
56 characters, is all lower case, and its first 52 characters base-32
decode back to the key bytes. -/
theorem C3_onion_address (sha3_256 : List Nat → List Nat)
    (hsha : ∀ x, (sha3_256 x).length = 32) (p : PeerId) (hwf : p.WF) :
    ((p.as_onion_address sha3_256).isSome ↔
      (p.multihash.code = identityCode ∧
        ∃ k, PublicKey.from_protobuf_encoding p.multihash.digest =
          some (.ed25519 k))) ∧
    (∀ k, p.multihash.code = identityCode →
      PublicKey.from_protobuf_encoding p.multihash.digest = some (.ed25519 k) →
      p.as_onion_address sha3_256 = some (PeerId.onion_v3_from_pubkey sha3_256 k) ∧
      ∀ s, p.as_onion_address sha3_256 = some s →
        s.data = (base32Encode (k ++
          (sha3_256 (onionChecksumPrefixBytes ++ k ++ [3])).take 2 ++ [3])).map
            Char.toLower ∧
        s.length = 56 ∧
        (∀ c ∈ s.data, Char.toLower c = c) ∧
        base32LowerDecodeTrunc (s.data.take 52) = some k) := by
  constructor
  · unfold PeerId.as_onion_address PeerId.as_dalek_pubkey
    by_cases hc : p.multihash.code = identityCode
    · rw [if_pos hc]
      cases hdec : PublicKey.from_protobuf_encoding p.multihash.digest with
      | none => simp [hc]
      | some pk =>
        cases pk with
        | ed25519 k => simp [hc]
        | other tag mat => simp [hc]
    · rw [if_neg hc]
      simp [hc]
  · intro k hc hd
    have hak : p.as_dalek_pubkey = some k := by
      unfold PeerId.as_dalek_pubkey
      rw [if_pos hc, hd]
    have heq : p.as_onion_address sha3_256 =
        some (PeerId.onion_v3_from_pubkey sha3_256 k) := by
      unfold PeerId.as_onion_address
      rw [hak]
    refine ⟨heq, ?_⟩
    intro s hs
    rw [heq] at hs
    have hs' : PeerId.onion_v3_from_pubkey sha3_256 k = s := by
      simpa using hs
    subst hs'
    obtain ⟨hdig, hklen⟩ := from_protobuf_ed25519_inv _ _ hd
    have hkbytes : ∀ b ∈ k, b < 256 := by
      intro b hb
      refine hwf.1.2 b ?_
      rw [hdig]
      simp [hb]
    have hc2len : ((sha3_256 (onionChecksumPrefixBytes ++ k ++ [3])).take 2).length
        = 2 := by
      rw [List.length_take, hsha]
      decide
    have haddrlen : (k ++ (sha3_256 (onionChecksumPrefixBytes ++ k ++ [3])).take 2
        ++ [3]).length = 35 := by
      simp only [List.length_append, hklen, hc2len, List.length_singleton]
    have hdata : (PeerId.onion_v3_from_pubkey sha3_256 k).data =
        (base32Encode (k ++
          (sha3_256 (onionChecksumPrefixBytes ++ k ++ [3])).take 2 ++ [3])).map
            Char.toLower := rfl
    refine ⟨hdata, ?_, ?_, ?_⟩
    · show ((base32Encode (k ++
        (sha3_256 (onionChecksumPrefixBytes ++ k ++ [3])).take 2 ++ [3])).map
          Char.toLower).length = 56
      rw [List.length_map, base32Encode_35 _ haddrlen, base32Body_35_length _ haddrlen]
    · intro c hcm
      rw [hdata, base32Encode_35 _ haddrlen, base32Body_35 _ haddrlen] at hcm
      rw [List.map_map, List.mem_map] at hcm
      obtain ⟨g, hg, rfl⟩ := hcm
      have hg5 : g.length = 5 := by
        refine chunksOf_mem_length 5 (by omega) _ ?_ g hg
        rw [base32Bits_length, haddrlen]
        norm_num
      have hv : bitsValBE g < 32 := by
        have hlt := bitsValBE_lt g
        rw [hg5] at hlt
        simpa using hlt
      exact base32_toLower_idem _ hv
    · rw [hdata, List.append_assoc k]
      exact base32_onion_decode k _ hklen (by
        rw [List.length_append, hc2len, List.length_singleton]) hkbytes

/-- Witness for C3 at a concrete Ed25519 PeerId (all-zero key) and a
concrete stand-in for the external SHA3-256 (constant 32-byte
output). -/
theorem C3_onion_address_witness :
    (PeerId.as_onion_address (fun _ => List.replicate 32 9)
        ⟨⟨identityCode,
          (PublicKey.ed25519 (List.replicate 32 0)).into_protobuf_encoding⟩⟩).isSome ∧
    ∀ s, PeerId.as_onion_address (fun _ => List.replicate 32 9)
        ⟨⟨identityCode,
          (PublicKey.ed25519 (List.replicate 32 0)).into_protobuf_encoding⟩⟩ = some s →
      s.length = 56 ∧
      base32LowerDecodeTrunc (s.data.take 52) = some (List.replicate 32 0) := by
  have h := C3_onion_address (fun _ => List.replicate 32 9)
    (fun x => by simp) ⟨⟨identityCode,
      (PublicKey.ed25519 (List.replicate 32 0)).into_protobuf_encoding⟩⟩ (by decide)
  have hd : PublicKey.from_protobuf_encoding
      ((⟨⟨identityCode,
        (PublicKey.ed25519 (List.replicate 32 0)).into_protobuf_encoding⟩⟩ :
          PeerId).multihash.digest) =
      some (.ed25519 (List.replicate 32 0)) := by decide
  have h2 := h.2 (List.replicate 32 0) rfl hd
  refine ⟨?_, ?_⟩
  · rw [h2.1]
    rfl
  · intro s hs
    have h3 := h2.2 s hs
    exact ⟨h3.2.1, h3.2.2.2⟩
